import Mathlib

/-!
Verification of the BoS encrypted key-value store (Go, `main.go`).

The development shallowly embeds the program: Go byte strings become
`List Nat` (each element a byte value), the `kv` map becomes an
association list observed through `lookupKey`, and the stateful
`saveToFile` / `loadFromFile` functions become pure functions that
thread the store and report the final contents of the sensitive
buffers they handle.  Machine integers are `Nat` with explicit
`% 2 ^ 64` (resp. `% 256`, `% 2 ^ 128`) where the Go code relies on
fixed-width arithmetic.
-/

set_option maxRecDepth 10000

namespace BoS

/-- A Go byte string (`string` / `[]byte`): a list of byte values. -/
abbrev Bytes := List Nat

/-- The in-memory store `kv.data : map[string][]byte`, observed as an
association list from key bytes to value bytes. -/
abbrev Store := List (Bytes × Bytes)

/-- Map lookup: the value bound to `key`, if any. -/
def lookupKey (key : Bytes) (s : Store) : Option Bytes :=
  match s with
  | [] => none
  | (k, v) :: rest => if k = key then some v else lookupKey key rest

/-- Removal of every binding of `key` (a Go map holds at most one). -/
def eraseKey (key : Bytes) (s : Store) : Store :=
  s.filter (fun e => decide (e.1 ≠ key))

/-- Go map assignment `k.data[key] = val`: drop any old binding, add the
new one. -/
def setEntry (key val : Bytes) (s : Store) : Store :=
  eraseKey key s ++ [(key, val)]

/-- `kv.set` (main.go:28): stores `[]byte(val)` under `key`. -/
def kvSet (key val : Bytes) (s : Store) : Store :=
  setEntry key val s

/-- `kv.get` (main.go:34): returns `(string(v), ok)`; a missing key
yields `string(nil) = ""` and `false`. -/
def kvGet (key : Bytes) (s : Store) : Bytes × Bool :=
  match lookupKey key s with
  | some v => (v, true)
  | none => ([], false)

/-- `kv.del` (main.go:47): when the key is present its buffer is zeroed
in place and the entry removed, returning `true`; otherwise the store is
untouched and the result is `false`.  (The zeroing mutates a buffer that
is dropped in the same critical section, so it is unobservable through
the map.) -/
def kvDel (key : Bytes) (s : Store) : Store × Bool :=
  match lookupKey key s with
  | none => (s, false)
  | some _ => (eraseKey key s, true)

/-- `kv.snapshot` (main.go:59): a value-copy of every entry. -/
def kvSnapshot (s : Store) : Store := s

/-- `kv.replace` (main.go:69): every existing buffer is zeroed and
dropped, then the incoming mapping is installed verbatim. -/
def kvReplace (_s : Store) (incoming : Store) : Store := incoming

/-- One store mutation, for stating the "most recently set" invariant. -/
inductive KvOp where
  | setOp (key val : Bytes)
  | delOp (key : Bytes)
deriving DecidableEq

/-- Apply one mutation to the store. -/
def applyOp (s : Store) (op : KvOp) : Store :=
  match op with
  | .setOp k v => kvSet k v s
  | .delOp k => (kvDel k s).1

/-- Apply a sequence of mutations, oldest first. -/
def applyOps (s : Store) (ops : List KvOp) : Store :=
  ops.foldl applyOp s

/-- The effect on key `K` of the last operation in `ops` that touches
`K`: `some (some v)` for a set, `some none` for a delete, `none` when no
operation touched `K`.  (`ops` lists operations oldest first, so a later
operation overrides an earlier one.) -/
def lastWrite (K : Bytes) : List KvOp → Option (Option Bytes)
  | [] => none
  | op :: ops =>
    match lastWrite K ops with
    | some x => some x
    | none =>
      match op with
      | .setOp k v => if k = K then some (some v) else none
      | .delOp k => if k = K then some none else none

theorem lookupKey_eraseKey_self (key : Bytes) (s : Store) :
    lookupKey key (eraseKey key s) = none := by
  induction s with
  | nil => rfl
  | cons e rest ih =>
    by_cases h : e.1 = key
    · simpa [eraseKey, List.filter, h] using ih
    · simpa [eraseKey, List.filter, h, lookupKey] using ih

theorem lookupKey_eraseKey_ne (key k : Bytes) (s : Store) (h : k ≠ key) :
    lookupKey k (eraseKey key s) = lookupKey k s := by
  induction s with
  | nil => rfl
  | cons e rest ih =>
    obtain ⟨ek, ev⟩ := e
    by_cases he : ek = key
    · subst he
      have hk : ¬ ek = k := fun hkk => h hkk.symm
      simp only [eraseKey, List.filter, decide_not, decide_True, Bool.not_true]
      rw [show lookupKey k ((ek, ev) :: rest) = lookupKey k rest by
        simp [lookupKey, hk]]
      simpa [eraseKey] using ih
    · simp only [eraseKey, List.filter, he, decide_not, decide_False, Bool.not_false]
      by_cases hk : ek = k
      · simp [lookupKey, hk]
      · rw [show lookupKey k ((ek, ev) :: rest) = lookupKey k rest by
          simp [lookupKey, hk]]
        rw [show lookupKey k ((ek, ev) :: List.filter (fun e => !decide (e.1 = key)) rest)
            = lookupKey k (List.filter (fun e => !decide (e.1 = key)) rest) by
          simp [lookupKey, hk]]
        simpa [eraseKey] using ih

theorem lookupKey_append (k : Bytes) (l₁ l₂ : Store) :
    lookupKey k (l₁ ++ l₂) =
      match lookupKey k l₁ with
      | some v => some v
      | none => lookupKey k l₂ := by
  induction l₁ with
  | nil => simp [lookupKey]
  | cons e rest ih =>
    by_cases he : e.1 = k
    · simp [lookupKey, he]
    · simpa [lookupKey, he] using ih

theorem lookupKey_setEntry_self (key val : Bytes) (s : Store) :
    lookupKey key (setEntry key val s) = some val := by
  rw [setEntry, lookupKey_append, lookupKey_eraseKey_self]
  simp [lookupKey]

theorem lookupKey_setEntry_ne (key val k : Bytes) (s : Store) (h : k ≠ key) :
    lookupKey k (setEntry key val s) = lookupKey k s := by
  rw [setEntry, lookupKey_append, lookupKey_eraseKey_ne key k s h]
  cases hv : lookupKey k s with
  | some v => rfl
  | none => simp [lookupKey, Ne.symm h]

theorem lookupKey_applyOp (K : Bytes) (s : Store) (op : KvOp) :
    lookupKey K (applyOp s op) =
      match
        (match op with
         | .setOp k v => if k = K then some (some v) else none
         | .delOp k => if k = K then some none else none) with
      | some (some w) => some w
      | some none => none
      | none => lookupKey K s := by
  cases op with
  | setOp k v =>
    by_cases hk : k = K
    · subst hk
      simp [applyOp, kvSet, lookupKey_setEntry_self]
    · simp [applyOp, kvSet, hk, lookupKey_setEntry_ne k v K s (Ne.symm hk)]
  | delOp k =>
    by_cases hk : k = K
    · subst hk
      cases hv : lookupKey k s with
      | none => simp [applyOp, kvDel, hv]
      | some v => simp [applyOp, kvDel, hv, lookupKey_eraseKey_self]
    · cases hv : lookupKey k s with
      | none => simp [applyOp, kvDel, hv, hk]
      | some v =>
        simp [applyOp, kvDel, hv, hk, lookupKey_eraseKey_ne k K s (Ne.symm hk)]

theorem lookupKey_applyOps (K : Bytes) (ops : List KvOp) (s : Store) :
    lookupKey K (applyOps s ops) =
      match lastWrite K ops with
      | some (some w) => some w
      | some none => none
      | none => lookupKey K s := by
  induction ops generalizing s with
  | nil => rfl
  | cons op ops ih =>
    rw [show applyOps s (op :: ops) = applyOps (applyOp s op) ops from rfl, ih,
      lookupKey_applyOp]
    rw [show lastWrite K (op :: ops) =
        (match lastWrite K ops with
         | some x => some x
         | none =>
           match op with
           | .setOp k v => if k = K then some (some v) else none
           | .delOp k => if k = K then some none else none) from rfl]
    cases hrest : lastWrite K ops with
    | some x => cases x <;> rfl
    | none =>
      cases op with
      | setOp k v => by_cases hk : k = K <;> simp [hk]
      | delOp k => by_cases hk : k = K <;> simp [hk]

/-- C8: immediately after `set(k, v)`, `get(k)` returns `(v, true)`; and
in general, after any sequence of `set`/`del` operations, `get` for a
key `K` returns the value of the most recent `set` of `K`, absence if
the most recent operation touching `K` was a `del`, and the prior
contents of the store if no operation touched `K`. -/
theorem set_get_most_recent (k v K : Bytes) (s : Store) (ops : List KvOp) :
    kvGet k (kvSet k v s) = (v, true) ∧
    kvGet K (applyOps s ops) =
      (match lastWrite K ops with
       | some (some w) => (w, true)
       | some none => ([], false)
       | none => kvGet K s) := by
  constructor
  · simp [kvGet, kvSet, lookupKey_setEntry_self]
  · rw [kvGet, lookupKey_applyOps]
    cases hw : lastWrite K ops with
    | none => rfl
    | some x => cases x <;> rfl

/-- C9: `del(k)` returns `true` exactly when `k` is present; afterwards
`get(k)` reports absence; `del` on an absent key returns `false` and
leaves the store unchanged; hence a second consecutive `del(k)` always
returns `false`. -/
theorem del_semantics (k : Bytes) (s : Store) :
    (kvDel k s).2 = (lookupKey k s).isSome ∧
    lookupKey k (kvDel k s).1 = none ∧
    (lookupKey k s = none → kvDel k s = (s, false)) ∧
    (kvDel k (kvDel k s).1).2 = false := by
  cases hv : lookupKey k s with
  | none =>
    refine ⟨by simp [kvDel, hv], by simp [kvDel, hv], fun _ => by simp [kvDel, hv], ?_⟩
    simp [kvDel, hv]
  | some v =>
    refine ⟨by simp [kvDel, hv], ?_, fun hn => by simp [hv] at hn, ?_⟩
    · simp [kvDel, hv, lookupKey_eraseKey_self]
    · simp [kvDel, hv, lookupKey_eraseKey_self]

/-- Witness for `del_semantics` at a concrete store. -/
theorem del_semantics_witness :
    kvDel [97] ([] : Store) = (([] : Store), false) :=
  (del_semantics [97] ([] : Store)).2.2.1 (by decide)

/-! ## UTF-8 and the line protocol

`utf8Decode1` models the stdlib `utf8.DecodeRune`: it reads one code
point from the front of a byte string and reports `(rune, size)`, or
`none` for an invalid or incomplete encoding (Go reports
`(RuneError, 1)` there; callers below handle that case explicitly).
Overlong encodings, surrogates and values above U+10FFFF are rejected,
exactly as in the stdlib's accept-range tables. -/

def utf8Decode1 : Bytes → Option (Nat × Nat)
  | [] => none
  | b0 :: rest =>
    if b0 < 0x80 then some (b0, 1)
    else if b0 < 0xC2 then none
    else if b0 ≤ 0xDF then
      match rest with
      | b1 :: _ =>
        if 0x80 ≤ b1 ∧ b1 ≤ 0xBF then some ((b0 % 32) * 64 + b1 % 64, 2) else none
      | [] => none
    else if b0 ≤ 0xEF then
      match rest with
      | b1 :: b2 :: _ =>
        if (if b0 = 0xE0 then 0xA0 else 0x80) ≤ b1 ∧
            b1 ≤ (if b0 = 0xED then 0x9F else 0xBF) ∧
            0x80 ≤ b2 ∧ b2 ≤ 0xBF then
          some ((b0 % 16) * 4096 + (b1 % 64) * 64 + b2 % 64, 3)
        else none
      | _ => none
    else if b0 ≤ 0xF4 then
      match rest with
      | b1 :: b2 :: b3 :: _ =>
        if (if b0 = 0xF0 then 0x90 else 0x80) ≤ b1 ∧
            b1 ≤ (if b0 = 0xF4 then 0x8F else 0xBF) ∧
            0x80 ≤ b2 ∧ b2 ≤ 0xBF ∧ 0x80 ≤ b3 ∧ b3 ≤ 0xBF then
          some ((b0 % 8) * 262144 + (b1 % 64) * 4096 + (b2 % 64) * 64 + b3 % 64, 4)
        else none
      | _ => none
    else none

/-- `unicode.IsSpace`: the White_Space code points. -/
def isSpaceRune (r : Nat) : Bool :=
  decide (r = 9 ∨ r = 10 ∨ r = 11 ∨ r = 12 ∨ r = 13 ∨ r = 32 ∨
    r = 0x85 ∨ r = 0xA0 ∨ r = 0x1680 ∨ (0x2000 ≤ r ∧ r ≤ 0x200A) ∨
    r = 0x2028 ∨ r = 0x2029 ∨ r = 0x202F ∨ r = 0x205F ∨ r = 0x3000)

/-- Decode a byte string into its runes, keeping each rune's original
bytes and whether it is white space.  An invalid byte stands for
`RuneError` (never white space) and is kept verbatim, as in
`strings.FieldsFunc`, which slices the original string.  The fuel is
the remaining byte count; each step consumes at least one byte. -/
def runeChunks : Nat → Bytes → List (Bytes × Bool)
  | 0, _ => []
  | _ + 1, [] => []
  | fuel + 1, b :: rest =>
    match utf8Decode1 (b :: rest) with
    | some (r, n) =>
      ((b :: rest).take n, isSpaceRune r) :: runeChunks fuel ((b :: rest).drop n)
    | none => ([b], false) :: runeChunks fuel rest

def runesOf (s : Bytes) : List (Bytes × Bool) := runeChunks s.length s

/-- The longest leading run of non-space runes (its bytes), and the
remaining rune list. -/
def takeField : List (Bytes × Bool) → Bytes × List (Bytes × Bool)
  | [] => ([], [])
  | (bs, sp) :: rest =>
    if sp then ([], (bs, sp) :: rest)
    else
      let fr := takeField rest
      (bs ++ fr.1, fr.2)

def fieldsAux : Nat → List (Bytes × Bool) → List Bytes
  | 0, _ => []
  | _ + 1, [] => []
  | fuel + 1, (bs, sp) :: rest =>
    if sp then fieldsAux fuel rest
    else
      let fr := takeField rest
      (bs ++ fr.1) :: fieldsAux fuel fr.2

/-- `strings.Fields`: the maximal runs of non-white-space runes. -/
def fieldsB (s : Bytes) : List Bytes :=
  fieldsAux (runesOf s).length (runesOf s)

/-- `strings.TrimSpace`: the input with leading and trailing
white-space runes removed. -/
def trimSpaceB (s : Bytes) : Bytes :=
  let core := (((runesOf s).dropWhile (·.2)).reverse.dropWhile (·.2)).reverse
  core.foldr (fun c acc => c.1 ++ acc) []

/-- `strings.ToUpper`, restricted to the ASCII case mapping (the only
one exercised by the protocol's command verbs; exotic Unicode upcasings
such as U+017F → S are not modelled). -/
def toUpperB (s : Bytes) : Bytes :=
  s.map (fun b => if 97 ≤ b ∧ b ≤ 122 then b - 32 else b)

/-- `strings.Join(parts, " ")`. -/
def joinSpace : List Bytes → Bytes
  | [] => []
  | [x] => x
  | x :: rest => x ++ 32 :: joinSpace rest

/-- The response token the handler writes for one request line, or the
persistence call it makes (`SAVE`/`LOAD` run `saveToFile`/`loadFromFile`,
which are modelled separately). -/
inductive Resp where
  | empty
  | ok
  | errTok
  | nilTok
  | valueOut (v : Bytes)
  | saveReq (path pw : Bytes)
  | loadReq (path pw : Bytes)
deriving DecidableEq

/-- `handle`'s per-line dispatch (main.go:190): split the trimmed line
into fields, uppercase the verb, and run the matching command against
the store.  An empty line produces no response (`continue`). -/
def handleLine (line : Bytes) (s : Store) : Store × Resp :=
  match fieldsB (trimSpaceB line) with
  | [] => (s, .empty)
  | verb :: args =>
    let v := toUpperB verb
    if v = [83, 69, 84] then
      match args with
      | key :: v0 :: vs => (kvSet key (joinSpace (v0 :: vs)) s, .ok)
      | _ => (s, .errTok)
    else if v = [71, 69, 84] then
      match args with
      | [key] =>
        match lookupKey key s with
        | some w => (s, .valueOut w)
        | none => (s, .nilTok)
      | _ => (s, .errTok)
    else if v = [68, 69, 76] then
      match args with
      | [key] =>
        let r := kvDel key s
        (r.1, if r.2 then .ok else .nilTok)
      | _ => (s, .errTok)
    else if v = [83, 65, 86, 69] then
      match args with
      | [p, w] => (s, .saveReq p w)
      | _ => (s, .errTok)
    else if v = [76, 79, 65, 68] then
      match args with
      | [p, w] => (s, .loadReq p w)
      | _ => (s, .errTok)
    else (s, .errTok)

/-- C3 (amended): for every SET command line with at least two
arguments, the value stored under the key is the whitespace-separated
fields after the key joined by single spaces (runs of white space in
the original line collapse and do not survive into the stored value);
a SET line with fewer than two arguments is answered with `ERR` and
does not change the store. -/
theorem set_command (line : Bytes) (s : Store) (verb key v0 : Bytes)
    (vs args : List Bytes) :
    (fieldsB (trimSpaceB line) = verb :: key :: v0 :: vs →
      toUpperB verb = [83, 69, 84] →
      handleLine line s = (kvSet key (joinSpace (v0 :: vs)) s, Resp.ok)) ∧
    (fieldsB (trimSpaceB line) = verb :: args →
      toUpperB verb = [83, 69, 84] →
      args.length < 2 →
      handleLine line s = (s, Resp.errTok)) := by
  constructor
  · intro hf hv
    rw [handleLine, hf]
    simp [hv]
  · intro hf hv hlen
    match args, hlen with
    | [], _ =>
      rw [handleLine, hf]
      simp [hv]
    | [a], _ =>
      rw [handleLine, hf]
      simp [hv]

/-- Witness for `set_command`: the line `SET k v` stores `v` under `k`
and answers `OK`; the line `SET k` answers `ERR` and leaves the store
unchanged. -/
theorem set_command_witness :
    handleLine [83, 69, 84, 32, 107, 32, 118] [] =
      (kvSet [107] (joinSpace [[118]]) [], Resp.ok) ∧
    handleLine [83, 69, 84, 32, 107] [] = ([], Resp.errTok) :=
  ⟨(set_command [83, 69, 84, 32, 107, 32, 118] [] [83, 69, 84] [107] [118] [] []).1
      (by decide) (by decide),
    (set_command [83, 69, 84, 32, 107] [] [83, 69, 84] [107] [] [] [[107]]).2
      (by decide) (by decide) (by decide)⟩

/-- C3 counterexample: on the line `SET k a␣␣b` (two spaces inside the
value) the store receives `a␣b`, not the exact remainder of the line
after the key, which is `a␣␣b`. -/
theorem set_command_counterexample :
    lookupKey [107] (handleLine [83, 69, 84, 32, 107, 32, 97, 32, 32, 98] []).1 =
      some [97, 32, 98] ∧
    (([97, 32, 98] : Bytes) == [97, 32, 32, 98]) = false := by
  decide

/-! ## SHA-512, HMAC-SHA512, PBKDF2

`main.go` builds its key derivation from the stdlib `crypto/sha512` and
`crypto/hmac`; those primitives are embedded here in full (FIPS 180-4 /
RFC 2104), with 64-bit words as `Nat` reduced `% 2 ^ 64`. -/

def M64 : Nat := 2 ^ 64

/-- The 80 SHA-512 round constants (FIPS 180-4 §4.2.3). -/
def sha512K : List Nat := [
  4794697086780616226, 8158064640168781261, 13096744586834688815, 16840607885511220156,
  4131703408338449720, 6480981068601479193, 10538285296894168987, 12329834152419229976,
  15566598209576043074, 1334009975649890238, 2608012711638119052, 6128411473006802146,
  8268148722764581231, 9286055187155687089, 11230858885718282805, 13951009754708518548,
  16472876342353939154, 17275323862435702243, 1135362057144423861, 2597628984639134821,
  3308224258029322869, 5365058923640841347, 6679025012923562964, 8573033837759648693,
  10970295158949994411, 12119686244451234320, 12683024718118986047, 13788192230050041572,
  14330467153632333762, 15395433587784984357, 489312712824947311, 1452737877330783856,
  2861767655752347644, 3322285676063803686, 5560940570517711597, 5996557281743188959,
  7280758554555802590, 8532644243296465576, 9350256976987008742, 10552545826968843579,
  11727347734174303076, 12113106623233404929, 14000437183269869457, 14369950271660146224,
  15101387698204529176, 15463397548674623760, 17586052441742319658, 1182934255886127544,
  1847814050463011016, 2177327727835720531, 2830643537854262169, 3796741975233480872,
  4115178125766777443, 5681478168544905931, 6601373596472566643, 7507060721942968483,
  8399075790359081724, 8693463985226723168, 9568029438360202098, 10144078919501101548,
  10430055236837252648, 11840083180663258601, 13761210420658862357, 14299343276471374635,
  14566680578165727644, 15097957966210449927, 16922976911328602910, 17689382322260857208,
  500013540394364858, 748580250866718886, 1242879168328830382, 1977374033974150939,
  2944078676154940804, 3659926193048069267, 4368137639120453308, 4836135668995329356,
  5532061633213252278, 6448918945643986474, 6902733635092675308, 7801388544844847127]

/-- The SHA-512 working state: eight 64-bit words. -/
structure Sha512State where
  h0 : Nat
  h1 : Nat
  h2 : Nat
  h3 : Nat
  h4 : Nat
  h5 : Nat
  h6 : Nat
  h7 : Nat

/-- The SHA-512 initial hash value (FIPS 180-4 §5.3.5). -/
def sha512Init : Sha512State :=
  ⟨7640891576956012808, 13503953896175478587, 4354685564936845355, 11912009170470909681,
    5840696475078001361, 11170449401992604703, 2270897969802886507, 6620516959819538809⟩

/-- Rotate a 64-bit word right by `n` (for `0 < n < 64` and `x < 2^64`). -/
def rotr64 (x n : Nat) : Nat := x / 2 ^ n + x % 2 ^ n * 2 ^ (64 - n)

/-- Bitwise complement within 64 bits. -/
def not64 (x : Nat) : Nat := x ^^^ (M64 - 1)

def sha512Ch (x y z : Nat) : Nat := (x &&& y) ^^^ (not64 x &&& z)

def sha512Maj (x y z : Nat) : Nat := (x &&& y) ^^^ (x &&& z) ^^^ (y &&& z)

def bigSigma0 (x : Nat) : Nat := rotr64 x 28 ^^^ rotr64 x 34 ^^^ rotr64 x 39

def bigSigma1 (x : Nat) : Nat := rotr64 x 14 ^^^ rotr64 x 18 ^^^ rotr64 x 41

def smallSigma0 (x : Nat) : Nat := rotr64 x 1 ^^^ rotr64 x 8 ^^^ x / 2 ^ 7

def smallSigma1 (x : Nat) : Nat := rotr64 x 19 ^^^ rotr64 x 61 ^^^ x / 2 ^ 6

/-- The big-endian 64-bit word at byte offset `off`. -/
def be64At (l : Bytes) (off : Nat) : Nat :=
  l.getD off 0 * 2 ^ 56 + l.getD (off + 1) 0 * 2 ^ 48 + l.getD (off + 2) 0 * 2 ^ 40 +
  l.getD (off + 3) 0 * 2 ^ 32 + l.getD (off + 4) 0 * 2 ^ 24 + l.getD (off + 5) 0 * 2 ^ 16 +
  l.getD (off + 6) 0 * 2 ^ 8 + l.getD (off + 7) 0

/-- A 64-bit word as 8 big-endian bytes. -/
def be64Bytes (w : Nat) : Bytes :=
  [w / 2 ^ 56 % 256, w / 2 ^ 48 % 256, w / 2 ^ 40 % 256, w / 2 ^ 32 % 256,
    w / 2 ^ 24 % 256, w / 2 ^ 16 % 256, w / 2 ^ 8 % 256, w % 256]

/-- Extend the 16-word block schedule by `n` further words
(FIPS 180-4 §6.4.2 step 1). -/
def extendSchedule : Nat → List Nat → List Nat
  | 0, w => w
  | n + 1, w =>
    let t := w.length
    extendSchedule n (w ++
      [(smallSigma1 (w.getD (t - 2) 0) + w.getD (t - 7) 0 +
        smallSigma0 (w.getD (t - 15) 0) + w.getD (t - 16) 0) % M64])

/-- One SHA-512 round. -/
def sha512Round (st : Sha512State) (kt wt : Nat) : Sha512State :=
  let t1 := (st.h7 + bigSigma1 st.h4 + sha512Ch st.h4 st.h5 st.h6 + kt + wt) % M64
  let t2 := (bigSigma0 st.h0 + sha512Maj st.h0 st.h1 st.h2) % M64
  ⟨(t1 + t2) % M64, st.h0, st.h1, st.h2, (st.h3 + t1) % M64, st.h4, st.h5, st.h6⟩

/-- Process one 128-byte block. -/
def sha512Compress (st : Sha512State) (block : Bytes) : Sha512State :=
  let w := extendSchedule 64 ((List.range 16).map (fun i => be64At block (8 * i)))
  let f := (List.range 80).foldl
    (fun s t => sha512Round s (sha512K.getD t 0) (w.getD t 0)) st
  ⟨(st.h0 + f.h0) % M64, (st.h1 + f.h1) % M64, (st.h2 + f.h2) % M64,
    (st.h3 + f.h3) % M64, (st.h4 + f.h4) % M64, (st.h5 + f.h5) % M64,
    (st.h6 + f.h6) % M64, (st.h7 + f.h7) % M64⟩

/-- SHA-512 padding: one `0x80` byte, zeros to 112 mod 128, then the
message bit length as a 128-bit big-endian integer. -/
def sha512Pad (msg : Bytes) : Bytes :=
  msg ++ 0x80 :: List.replicate ((240 - (msg.length + 1) % 128) % 128) 0 ++
    (List.range 16).map (fun i => 8 * msg.length / 2 ^ (8 * (15 - i)) % 256)

/-- Split a padded message into 128-byte blocks (fuel = byte count). -/
def toBlocks : Nat → Bytes → List Bytes
  | 0, _ => []
  | _ + 1, [] => []
  | fuel + 1, l => l.take 128 :: toBlocks fuel (l.drop 128)

/-- SHA-512 of a byte string: a 64-byte digest. -/
def sha512 (msg : Bytes) : Bytes :=
  let padded := sha512Pad msg
  let f := (toBlocks padded.length padded).foldl sha512Compress sha512Init
  be64Bytes f.h0 ++ be64Bytes f.h1 ++ be64Bytes f.h2 ++ be64Bytes f.h3 ++
    be64Bytes f.h4 ++ be64Bytes f.h5 ++ be64Bytes f.h6 ++ be64Bytes f.h7

theorem sha512_length (msg : Bytes) : (sha512 msg).length = 64 := by
  simp [sha512, be64Bytes]

/-- `hmacSHA512` (main.go:81) via the stdlib `crypto/hmac` with a
128-byte block size (RFC 2104): a key longer than the block is first
hashed, the key is zero-padded to the block, and the digest is
`H((k ^ opad) ‖ H((k ^ ipad) ‖ data))`. -/
def hmacSHA512 (key data : Bytes) : Bytes :=
  let k0 := if 128 < key.length then sha512 key else key
  let kp := k0 ++ List.replicate (128 - k0.length) 0
  sha512 ((kp.map (fun b => b ^^^ 0x5C)) ++
    sha512 ((kp.map (fun b => b ^^^ 0x36)) ++ data))

theorem hmacSHA512_length (key data : Bytes) :
    (hmacSHA512 key data).length = 64 := by
  rw [hmacSHA512]
  exact sha512_length _

/-- XOR of two byte strings, truncated to the first operand's length:
models both the in-place loop `for k := range t { t[k] ^= u[k] }` of
main.go:100 (where `u` is always at least as long as `t`) and the
octet-string XOR of RFC 8018. -/
def xorBytes (t u : Bytes) : Bytes := List.zipWith (fun a b => a ^^^ b) t u

/-- `byte(i>>24), byte(i>>16), byte(i>>8), byte(i)` (main.go:93). -/
def int32be (i : Nat) : Bytes :=
  [i / 2 ^ 24 % 256, i / 2 ^ 16 % 256, i / 2 ^ 8 % 256, i % 256]

/-- The inner loop of `pbkdf2sha512` (main.go:98): starting from
chaining value `u`, run `n` more iterations, XOR-folding each new `u`
into `t`. -/
def pbkdf2Inner (password : Bytes) : Nat → Bytes → Bytes → Bytes
  | 0, _, t => t
  | n + 1, u, t =>
    let u2 := hmacSHA512 password u
    pbkdf2Inner password n u2 (xorBytes t u2)

/-- One output block of `pbkdf2sha512` for block index `i`:
`u := HMAC(password, salt ‖ INT_32BE(i))`, `t := make(64); copy(t, u)`,
then `iter - 1` further iterations XOR-folded into `t`. -/
def pbkdf2Block (password salt : Bytes) (iter i : Nat) : Bytes :=
  let u := hmacSHA512 password (salt ++ int32be i)
  let t := (u ++ List.replicate 64 0).take 64
  pbkdf2Inner password (iter - 1) u t

/-- The outer loop of `pbkdf2sha512`: blocks `i, i+1, …` (`n` of them)
concatenated. -/
def pbkdf2OuterLoop (password salt : Bytes) (iter : Nat) : Nat → Nat → Bytes
  | 0, _ => []
  | n + 1, i => pbkdf2Block password salt iter i ++ pbkdf2OuterLoop password salt iter n (i + 1)

/-- `pbkdf2sha512` (main.go:87): `l = ceil(dkLen/64)` blocks starting
at index 1, truncated to `dkLen` bytes. -/
def pbkdf2sha512 (password salt : Bytes) (iter dkLen : Nat) : Bytes :=
  let hLen := 64
  let l := (dkLen + hLen - 1) / hLen
  (pbkdf2OuterLoop password salt iter l 1).take dkLen

/-- `deriveKey` (main.go:109): PBKDF2-HMAC-SHA512 with 100000
iterations and a 32-byte output. -/
def deriveKey (pass salt : Bytes) : Bytes :=
  pbkdf2sha512 pass salt 100000 32

theorem xorBytes_length (t u : Bytes) :
    (xorBytes t u).length = min t.length u.length :=
  List.length_zipWith _ t u

theorem pbkdf2Inner_length (password : Bytes) :
    ∀ (n : Nat) (u t : Bytes), t.length = 64 →
      (pbkdf2Inner password n u t).length = 64 := by
  intro n
  induction n with
  | zero => intro u t ht; exact ht
  | succ m ih =>
    intro u t ht
    rw [pbkdf2Inner]
    exact ih _ _ (by rw [xorBytes_length, ht, hmacSHA512_length]; rfl)

theorem pbkdf2Block_length (password salt : Bytes) (iter i : Nat) :
    (pbkdf2Block password salt iter i).length = 64 := by
  rw [pbkdf2Block]
  apply pbkdf2Inner_length
  rw [List.length_take, List.length_append, hmacSHA512_length]
  simp

theorem pbkdf2OuterLoop_length (password salt : Bytes) (iter : Nat) :
    ∀ (n i : Nat), (pbkdf2OuterLoop password salt iter n i).length = 64 * n := by
  intro n
  induction n with
  | zero => intro i; rfl
  | succ m ih =>
    intro i
    rw [pbkdf2OuterLoop, List.length_append, pbkdf2Block_length, ih]
    ring

theorem pbkdf2sha512_length (password salt : Bytes) (iter dkLen : Nat) :
    (pbkdf2sha512 password salt iter dkLen).length = dkLen := by
  rw [pbkdf2sha512]
  simp only [List.length_take, pbkdf2OuterLoop_length]
  omega

/-- C5: `deriveKey` is deterministic — the same password and salt always
produce the same key — and its output is always exactly 32 bytes,
obtained as PBKDF2-HMAC-SHA512 with 100000 iterations. -/
theorem deriveKey_deterministic_len32 (pass salt pass' salt' : Bytes) :
    (deriveKey pass salt).length = 32 ∧
    deriveKey pass salt = pbkdf2sha512 pass salt 100000 32 ∧
    (pass' = pass → salt' = salt → deriveKey pass' salt' = deriveKey pass salt) := by
  refine ⟨pbkdf2sha512_length pass salt 100000 32, rfl, ?_⟩
  intro hp hs
  rw [hp, hs]

/-- Witness for `deriveKey_deterministic_len32` at concrete inputs. -/
theorem deriveKey_deterministic_len32_witness :
    deriveKey [] [] = deriveKey [] [] :=
  (deriveKey_deterministic_len32 [] [] [] []).2.2 rfl rfl

/-! ## PBKDF2 as specified by RFC 8018 -/

/-- The RFC 8018 §5.2 chaining values for block index `i`, shifted by
one: `rfcU password salt i j` is `U_{j+1}`, with
`U_1 = PRF(P, S ‖ INT(i))` and `U_{j+1} = PRF(P, U_j)`, where the PRF
is HMAC-SHA512 and `INT(i)` is a four-byte big-endian encoding. -/
def rfcU (password salt : Bytes) (i : Nat) : Nat → Bytes
  | 0 => hmacSHA512 password (salt ++ int32be i)
  | j + 1 => hmacSHA512 password (rfcU password salt i j)

/-- RFC 8018 §5.2: `T_i = U_1 \xor U_2 \xor ... \xor U_c`. -/
def rfcT (password salt : Bytes) (c i : Nat) : Bytes :=
  (List.range' 0 c).foldl (fun acc j => xorBytes acc (rfcU password salt i j))
    (List.replicate 64 0)

/-- PBKDF2 as written in RFC 8018 §5.2 with HMAC-SHA512 as the PRF:
`DK = first dkLen octets of T_1 ‖ T_2 ‖ ... ‖ T_l`, `l = ceil(dkLen/hLen)`. -/
def pbkdf2Rfc8018 (password salt : Bytes) (c dkLen : Nat) : Bytes :=
  let hLen := 64
  let l := (dkLen + hLen - 1) / hLen
  (((List.range' 1 l).map (fun i => rfcT password salt c i)).flatten).take dkLen

theorem rfcU_length (password salt : Bytes) (i : Nat) :
    ∀ j, (rfcU password salt i j).length = 64 := by
  intro j
  cases j with
  | zero => exact hmacSHA512_length _ _
  | succ m => exact hmacSHA512_length _ _

theorem xorBytes_replicate_zero (u : Bytes) :
    ∀ (n : Nat), u.length = n → xorBytes (List.replicate n 0) u = u := by
  induction u with
  | nil => intro n hn; cases hn; rfl
  | cons b u' ih =>
    intro n hn
    cases hn
    simp only [List.length_cons, List.replicate, xorBytes, List.zipWith]
    rw [Nat.zero_xor]
    exact congrArg (b :: ·) (ih u'.length rfl)

theorem pbkdf2Inner_spec (password salt : Bytes) (i : Nat) :
    ∀ (n j : Nat) (t : Bytes),
      pbkdf2Inner password n (rfcU password salt i j) t =
        (List.range' (j + 1) n).foldl
          (fun acc m => xorBytes acc (rfcU password salt i m)) t := by
  intro n
  induction n with
  | zero => intro j t; rfl
  | succ m ih =>
    intro j t
    rw [pbkdf2Inner, List.range'_succ, List.foldl_cons]
    exact ih (j + 1) (xorBytes t (rfcU password salt i (j + 1)))

theorem pbkdf2Block_eq_rfcT (password salt : Bytes) (iter i : Nat)
    (hiter : 1 ≤ iter) :
    pbkdf2Block password salt iter i = rfcT password salt iter i := by
  obtain ⟨m, rfl⟩ : ∃ m, iter = m + 1 := ⟨iter - 1, by omega⟩
  rw [pbkdf2Block, rfcT]
  have hu : hmacSHA512 password (salt ++ int32be i) = rfcU password salt i 0 := rfl
  have h64 : (hmacSHA512 password (salt ++ int32be i)).length = 64 :=
    hmacSHA512_length _ _
  have htake : ((hmacSHA512 password (salt ++ int32be i) ++ List.replicate 64 0).take 64)
      = hmacSHA512 password (salt ++ int32be i) := by
    rw [show (64 : Nat) = (hmacSHA512 password (salt ++ int32be i)).length from h64.symm,
      List.take_left]
  rw [htake, hu, show m + 1 - 1 = m from rfl, pbkdf2Inner_spec password salt i m 0,
    List.range'_succ, List.foldl_cons,
    xorBytes_replicate_zero (rfcU password salt i 0) 64 (rfcU_length password salt i 0)]

theorem pbkdf2OuterLoop_spec (password salt : Bytes) (iter : Nat)
    (hiter : 1 ≤ iter) :
    ∀ (n i : Nat), pbkdf2OuterLoop password salt iter n i =
      ((List.range' i n).map (fun j => rfcT password salt iter j)).flatten := by
  intro n
  induction n with
  | zero => intro i; rfl
  | succ m ih =>
    intro i
    rw [pbkdf2OuterLoop, List.range'_succ, List.map_cons, List.flatten_cons, ih (i + 1),
      pbkdf2Block_eq_rfcT password salt iter i hiter]

/-- C6: `pbkdf2sha512` coincides with PBKDF2 as specified by RFC 8018
with HMAC-SHA512 as the pseudorandom function, for every password,
salt, iteration count ≥ 1 and output length ≥ 1. -/
theorem pbkdf2_matches_rfc8018 (password salt : Bytes) (iter dkLen : Nat)
    (hiter : 1 ≤ iter) (_hdk : 1 ≤ dkLen) :
    pbkdf2sha512 password salt iter dkLen = pbkdf2Rfc8018 password salt iter dkLen := by
  rw [pbkdf2sha512, pbkdf2Rfc8018, pbkdf2OuterLoop_spec password salt iter hiter]

/-- Witness for `pbkdf2_matches_rfc8018` at a concrete input. -/
theorem pbkdf2_matches_rfc8018_witness :
    pbkdf2sha512 [] [] 1 1 = pbkdf2Rfc8018 [] [] 1 1 :=
  pbkdf2_matches_rfc8018 [] [] 1 1 (by decide) (by decide)

/-! ## AES-256 and GCM

`saveToFile`/`loadFromFile` use the stdlib `crypto/aes` and
`crypto/cipher.NewGCM`.  The 32-byte key produced by `deriveKey` selects
AES-256 (FIPS 197, Nk = 8, 14 rounds), embedded here with the state as
a 16-byte list in column-major order, and GCM per NIST SP 800-38D with
a 12-byte nonce and no associated data. -/

/-- The AES S-box. -/
def aesSbox : List Nat := [
  99, 124, 119, 123, 242, 107, 111, 197, 48, 1, 103, 43, 254, 215, 171, 118,
  202, 130, 201, 125, 250, 89, 71, 240, 173, 212, 162, 175, 156, 164, 114, 192,
  183, 253, 147, 38, 54, 63, 247, 204, 52, 165, 229, 241, 113, 216, 49, 21,
  4, 199, 35, 195, 24, 150, 5, 154, 7, 18, 128, 226, 235, 39, 178, 117,
  9, 131, 44, 26, 27, 110, 90, 160, 82, 59, 214, 179, 41, 227, 47, 132,
  83, 209, 0, 237, 32, 252, 177, 91, 106, 203, 190, 57, 74, 76, 88, 207,
  208, 239, 170, 251, 67, 77, 51, 133, 69, 249, 2, 127, 80, 60, 159, 168,
  81, 163, 64, 143, 146, 157, 56, 245, 188, 182, 218, 33, 16, 255, 243, 210,
  205, 12, 19, 236, 95, 151, 68, 23, 196, 167, 126, 61, 100, 93, 25, 115,
  96, 129, 79, 220, 34, 42, 144, 136, 70, 238, 184, 20, 222, 94, 11, 219,
  224, 50, 58, 10, 73, 6, 36, 92, 194, 211, 172, 98, 145, 149, 228, 121,
  231, 200, 55, 109, 141, 213, 78, 169, 108, 86, 244, 234, 101, 122, 174, 8,
  186, 120, 37, 46, 28, 166, 180, 198, 232, 221, 116, 31, 75, 189, 139, 138,
  112, 62, 181, 102, 72, 3, 246, 14, 97, 53, 87, 185, 134, 193, 29, 158,
  225, 248, 152, 17, 105, 217, 142, 148, 155, 30, 135, 233, 206, 85, 40, 223,
  140, 161, 137, 13, 191, 230, 66, 104, 65, 153, 45, 15, 176, 84, 187, 22]

def subByte (b : Nat) : Nat := aesSbox.getD b 0

/-- The big-endian 32-bit word at byte offset `off`. -/
def be32At (l : Bytes) (off : Nat) : Nat :=
  l.getD off 0 * 2 ^ 24 + l.getD (off + 1) 0 * 2 ^ 16 +
    l.getD (off + 2) 0 * 2 ^ 8 + l.getD (off + 3) 0

/-- A 32-bit word as 4 big-endian bytes. -/
def be32Bytes (w : Nat) : Bytes :=
  [w / 2 ^ 24 % 256, w / 2 ^ 16 % 256, w / 2 ^ 8 % 256, w % 256]

def rotWord (w : Nat) : Nat := w % 2 ^ 24 * 256 + w / 2 ^ 24

def subWord (w : Nat) : Nat :=
  subByte (w / 2 ^ 24 % 256) * 2 ^ 24 + subByte (w / 2 ^ 16 % 256) * 2 ^ 16 +
    subByte (w / 2 ^ 8 % 256) * 2 ^ 8 + subByte (w % 256)

/-- The AES-256 round-constant words `Rcon[j] = x^(j-1) · 0x01000000`
(only indices 1–7 arise for Nk = 8). -/
def aesRcon (j : Nat) : Nat := [0, 1, 2, 4, 8, 16, 32, 64].getD j 0 * 2 ^ 24

/-- Key-expansion loop: extend the word schedule by `n` words
(FIPS 197 §5.2 with Nk = 8). -/
def aesExpandLoop : Nat → List Nat → List Nat
  | 0, w => w
  | n + 1, w =>
    let i := w.length
    let temp := w.getD (i - 1) 0
    let temp2 :=
      if i % 8 = 0 then subWord (rotWord temp) ^^^ aesRcon (i / 8)
      else if i % 8 = 4 then subWord temp
      else temp
    aesExpandLoop n (w ++ [w.getD (i - 8) 0 ^^^ temp2])

/-- The 60-word AES-256 key schedule. -/
def aesExpandKey (key : Bytes) : List Nat :=
  aesExpandLoop 52 ((List.range 8).map (fun i => be32At key (4 * i)))

/-- The 16 bytes of round key `r`. -/
def roundKeyBytes (w : List Nat) (r : Nat) : Bytes :=
  be32Bytes (w.getD (4 * r) 0) ++ be32Bytes (w.getD (4 * r + 1) 0) ++
    be32Bytes (w.getD (4 * r + 2) 0) ++ be32Bytes (w.getD (4 * r + 3) 0)

def subBytesOp (st : Bytes) : Bytes := st.map subByte

/-- ShiftRows on the column-major flat state:
`out[r + 4c] = in[r + 4((c + r) % 4)]`. -/
def shiftRowsOp (st : Bytes) : Bytes :=
  [st.getD 0 0, st.getD 5 0, st.getD 10 0, st.getD 15 0,
    st.getD 4 0, st.getD 9 0, st.getD 14 0, st.getD 3 0,
    st.getD 8 0, st.getD 13 0, st.getD 2 0, st.getD 7 0,
    st.getD 12 0, st.getD 1 0, st.getD 6 0, st.getD 11 0]

/-- Multiplication by `x` in GF(2^8) modulo `x^8 + x^4 + x^3 + x + 1`. -/
def gfx2 (b : Nat) : Nat := 2 * b % 256 ^^^ (if 128 ≤ b then 27 else 0)

def gfx3 (b : Nat) : Nat := gfx2 b ^^^ b

def mixColumnsOp (st : Bytes) : Bytes :=
  (List.range 16).map (fun i =>
    let c := i / 4
    let a0 := st.getD (4 * c) 0
    let a1 := st.getD (4 * c + 1) 0
    let a2 := st.getD (4 * c + 2) 0
    let a3 := st.getD (4 * c + 3) 0
    match i % 4 with
    | 0 => gfx2 a0 ^^^ gfx3 a1 ^^^ a2 ^^^ a3
    | 1 => a0 ^^^ gfx2 a1 ^^^ gfx3 a2 ^^^ a3
    | 2 => a0 ^^^ a1 ^^^ gfx2 a2 ^^^ gfx3 a3
    | _ => gfx3 a0 ^^^ a1 ^^^ a2 ^^^ gfx2 a3)

/-- Rounds `r, r+1, …` (`n` of them) of the AES cipher. -/
def aesMainRounds (w : List Nat) : Nat → Nat → Bytes → Bytes
  | 0, _, st => st
  | n + 1, r, st =>
    aesMainRounds w n (r + 1)
      (xorBytes (mixColumnsOp (shiftRowsOp (subBytesOp st))) (roundKeyBytes w r))

/-- The AES-256 forward cipher on one 16-byte block (only the forward
direction is used by GCM). -/
def aesEncryptBlock (w : List Nat) (block : Bytes) : Bytes :=
  xorBytes (shiftRowsOp (subBytesOp (aesMainRounds w 13 1 (xorBytes block (roundKeyBytes w 0)))))
    (roundKeyBytes w 14)

/-- A 16-byte block as a 128-bit big-endian integer. -/
def be128ToNat (l : Bytes) : Nat := l.foldl (fun acc b => acc * 256 + b) 0

/-- A 128-bit integer as 16 big-endian bytes. -/
def natToBe128 (n : Nat) : Bytes :=
  (List.range 16).map (fun i => n / 2 ^ (8 * (15 - i)) % 256)

/-- One step of the GF(2^128) multiplication loop of SP 800-38D §6.3,
bits of `Y` taken most-significant first. -/
def gmulLoop : Nat → Nat → Nat → Nat → Nat
  | 0, Z, _, _ => Z
  | n + 1, Z, V, Y =>
    let Z2 := if Y / 2 ^ 127 % 2 = 1 then Z ^^^ V else Z
    let V2 := if V % 2 = 1 then V / 2 ^^^ 0xE1 * 2 ^ 120 else V / 2
    gmulLoop n Z2 V2 (Y * 2 % 2 ^ 128)

def gmul (X Y : Nat) : Nat := gmulLoop 128 0 X Y

/-- Split into 16-byte blocks (fuel = byte count); callers pad first. -/
def toBlocks16 : Nat → Bytes → List Bytes
  | 0, _ => []
  | _ + 1, [] => []
  | fuel + 1, l => l.take 16 :: toBlocks16 fuel (l.drop 16)

/-- GHASH over whole blocks: `Y_i = (Y_{i-1} ⊕ X_i) · H`. -/
def ghash (H : Nat) (data : Bytes) : Nat :=
  (toBlocks16 data.length data).foldl (fun Y b => gmul (Y ^^^ be128ToNat b) H) 0

/-- The GCM keystream for `n` blocks: counters `J0 + 1, J0 + 2, …`
where `J0 = nonce ‖ 0x00000001` and only the last 32 bits increment. -/
def gcmKeystream (w : List Nat) (nonce : Bytes) (n : Nat) : Bytes :=
  ((List.range n).map (fun i => aesEncryptBlock w (nonce ++ int32be ((2 + i) % 2 ^ 32)))).flatten

/-- The GCM authentication tag over ciphertext `ct` (no associated
data): `GHASH(H, ct ‖ pad ‖ len64(A)=0 ‖ len64(ct)) ⊕ E(K, J0)`. -/
def gcmTag (w : List Nat) (nonce ct : Bytes) : Bytes :=
  let H := be128ToNat (aesEncryptBlock w (List.replicate 16 0))
  let padded := ct ++ List.replicate ((16 - ct.length % 16) % 16) 0 ++
    be64Bytes 0 ++ be64Bytes (8 * ct.length % M64)
  xorBytes (aesEncryptBlock w (nonce ++ int32be 1)) (natToBe128 (ghash H padded))

/-- `gcm.Seal(nil, nonce, plaintext, nil)`: ciphertext followed by the
16-byte tag. -/
def gcmSeal (key nonce pt : Bytes) : Bytes :=
  let w := aesExpandKey key
  let ct := xorBytes pt (gcmKeystream w nonce ((pt.length + 15) / 16))
  ct ++ gcmTag w nonce ct

/-- `gcm.Open(nil, nonce, data, nil)`: reject inputs shorter than the
tag, recompute the tag over the ciphertext part, and decrypt only when
it matches (Go compares in constant time; the comparison result is the
same). -/
def gcmOpen (key nonce data : Bytes) : Option Bytes :=
  if data.length < 16 then none
  else
    let w := aesExpandKey key
    let ct := data.take (data.length - 16)
    let tag := data.drop (data.length - 16)
    if tag = gcmTag w nonce ct then
      some (xorBytes ct (gcmKeystream w nonce ((ct.length + 15) / 16)))
    else none

theorem shiftRowsOp_length (st : Bytes) : (shiftRowsOp st).length = 16 := by
  simp [shiftRowsOp]

theorem roundKeyBytes_length (w : List Nat) (r : Nat) :
    (roundKeyBytes w r).length = 16 := by
  simp [roundKeyBytes, be32Bytes]

theorem aesEncryptBlock_length (w : List Nat) (block : Bytes) :
    (aesEncryptBlock w block).length = 16 := by
  rw [aesEncryptBlock, xorBytes_length, shiftRowsOp_length, roundKeyBytes_length]
  rfl

theorem gcmKeystream_length (w : List Nat) (nonce : Bytes) (n : Nat) :
    (gcmKeystream w nonce n).length = 16 * n := by
  rw [gcmKeystream, List.length_flatten, List.map_map]
  have hmap : (List.range n).map
      (List.length ∘ fun i => aesEncryptBlock w (nonce ++ int32be ((2 + i) % 2 ^ 32))) =
      (List.range n).map (fun _ => 16) := by
    apply List.map_congr_left
    intro i _
    exact aesEncryptBlock_length _ _
  rw [hmap, List.map_const', List.sum_replicate, smul_eq_mul, List.length_range,
    Nat.mul_comm]

theorem natToBe128_length (n : Nat) : (natToBe128 n).length = 16 := by
  simp [natToBe128]

theorem gcmTag_length (w : List Nat) (nonce ct : Bytes) :
    (gcmTag w nonce ct).length = 16 := by
  rw [gcmTag, xorBytes_length, aesEncryptBlock_length, natToBe128_length]
  rfl

theorem xorBytes_cancel_right : ∀ (pt ks : Bytes), pt.length ≤ ks.length →
    xorBytes (xorBytes pt ks) ks = pt := by
  intro pt
  induction pt with
  | nil => intro ks _; rfl
  | cons a pt' ih =>
    intro ks hlen
    match ks with
    | b :: ks' =>
      show (a ^^^ b ^^^ b) :: xorBytes (xorBytes pt' ks') ks' = a :: pt'
      rw [Nat.xor_cancel_right, ih ks' (by simpa using hlen)]

/-- GCM round trip: opening a sealed message with the same key and
nonce recovers the plaintext (the recomputed tag matches, and the CTR
keystream XOR is an involution). -/
theorem gcmOpen_gcmSeal (key nonce pt : Bytes) :
    gcmOpen key nonce (gcmSeal key nonce pt) = some pt := by
  have hks : (gcmKeystream (aesExpandKey key) nonce ((pt.length + 15) / 16)).length =
      16 * ((pt.length + 15) / 16) := gcmKeystream_length _ _ _
  have hkge : pt.length ≤
      (gcmKeystream (aesExpandKey key) nonce ((pt.length + 15) / 16)).length := by
    rw [hks]; omega
  have hct : (xorBytes pt (gcmKeystream (aesExpandKey key) nonce ((pt.length + 15) / 16))).length
      = pt.length := by
    rw [xorBytes_length]; omega
  rw [gcmSeal, gcmOpen]
  simp only
  rw [List.length_append, hct, gcmTag_length]
  rw [if_neg (by omega)]
  rw [show pt.length + 16 - 16 = (xorBytes pt
      (gcmKeystream (aesExpandKey key) nonce ((pt.length + 15) / 16))).length by omega]
  rw [List.take_left, List.drop_left, if_pos rfl, hct,
    xorBytes_cancel_right _ _ hkge]

/-! ## JSON for `map[string]string`

`saveToFile` serializes the snapshot with `json.Marshal`, which sorts
the map keys bytewise and escapes each string with the default
HTML-escaping encoder; `loadFromFile` parses with `json.Unmarshal`.
Both are embedded below for the shapes that arise for a
`map[string]string`: an object whose member values are strings.
(`null` member values, which Go would decode as an unchanged zero-value
string, are not modelled; they never occur in marshalled output.) -/

/-- Lowercase hex digit, as in the encoder's `"0123456789abcdef"`. -/
def hexDigitChar (d : Nat) : Nat := if d < 10 then 48 + d else 87 + d

/-- `htmlSafeSet`: ASCII bytes the encoder emits verbatim (printable,
and none of `"` `\` `<` `>` `&`). -/
def htmlSafe (b : Nat) : Bool :=
  decide (0x20 ≤ b ∧ b ≠ 0x22 ∧ b ≠ 0x5C ∧ b ≠ 0x3C ∧ b ≠ 0x3E ∧ b ≠ 0x26)

/-- The body of a JSON string literal for byte string `s`, per the Go
encoder: safe ASCII verbatim; `\\ \" \n \r \t` short escapes;
other unsafe ASCII as `\u00XX`; U+2028/U+2029 as ` `/` `;
bytes of a valid multi-byte rune verbatim; an invalid byte becomes the
six characters `�`.  Fuel is the remaining byte count. -/
def escAux : Nat → Bytes → Bytes
  | 0, _ => []
  | _ + 1, [] => []
  | fuel + 1, b :: rest =>
    if b < 0x80 then
      if htmlSafe b then b :: escAux fuel rest
      else if b = 0x5C then 0x5C :: 0x5C :: escAux fuel rest
      else if b = 0x22 then 0x5C :: 0x22 :: escAux fuel rest
      else if b = 0x0A then 0x5C :: 0x6E :: escAux fuel rest
      else if b = 0x0D then 0x5C :: 0x72 :: escAux fuel rest
      else if b = 0x09 then 0x5C :: 0x74 :: escAux fuel rest
      else 0x5C :: 0x75 :: 0x30 :: 0x30 ::
        hexDigitChar (b / 16) :: hexDigitChar (b % 16) :: escAux fuel rest
    else
      match utf8Decode1 (b :: rest) with
      | none => 0x5C :: 0x75 :: 0x66 :: 0x66 :: 0x66 :: 0x64 :: escAux fuel rest
      | some (r, n) =>
        if r = 0x2028 ∨ r = 0x2029 then
          0x5C :: 0x75 :: 0x32 :: 0x30 :: 0x32 :: hexDigitChar (r % 16) ::
            escAux fuel ((b :: rest).drop n)
        else (b :: rest).take n ++ escAux fuel ((b :: rest).drop n)

def escString (s : Bytes) : Bytes := escAux s.length s

def printString (s : Bytes) : Bytes := 34 :: escString s ++ [34]

/-- Bytewise lexicographic order on byte strings (Go `string <`). -/
def keyLtB : Bytes → Bytes → Bool
  | [], [] => false
  | [], _ :: _ => true
  | _ :: _, [] => false
  | a :: as, b :: bs => if a < b then true else if b < a then false else keyLtB as bs

/-- `json.Marshal` sorts the map keys. -/
def sortEntries (s : Store) : Store :=
  List.insertionSort (fun e1 e2 => keyLtB e1.1 e2.1 = true) s

def printEntry (e : Bytes × Bytes) : Bytes :=
  printString e.1 ++ 58 :: printString e.2

def joinComma : List Bytes → Bytes
  | [] => []
  | [x] => x
  | x :: rest => x ++ 44 :: joinComma rest

/-- `json.Marshal` of a `map[string]string`: a compact object with the
entries in sorted key order. -/
def marshal (s : Store) : Bytes :=
  123 :: joinComma ((sortEntries s).map printEntry) ++ [125]

/-- JSON white space. -/
def isWsByte (b : Nat) : Bool := decide (b = 32 ∨ b = 9 ∨ b = 10 ∨ b = 13)

def skipWs (l : Bytes) : Bytes := l.dropWhile isWsByte

def hexVal (c : Nat) : Option Nat :=
  if 48 ≤ c ∧ c ≤ 57 then some (c - 48)
  else if 97 ≤ c ∧ c ≤ 102 then some (c - 87)
  else if 65 ≤ c ∧ c ≤ 70 then some (c - 55)
  else none

/-- Four hex digits (`getu4`). -/
def hex4 : Bytes → Option (Nat × Bytes)
  | d1 :: d2 :: d3 :: d4 :: rest =>
    match hexVal d1, hexVal d2, hexVal d3, hexVal d4 with
    | some h1, some h2, some h3, some h4 =>
      some (h1 * 4096 + h2 * 256 + h3 * 16 + h4, rest)
    | _, _, _, _ => none
  | _ => none

/-- `utf8.EncodeRune` for the code points the decoder can produce. -/
def utf8Encode (r : Nat) : Bytes :=
  if r < 0x80 then [r]
  else if r < 0x800 then [0xC0 + r / 64, 0x80 + r % 64]
  else if r < 0x10000 then [0xE0 + r / 4096, 0x80 + r / 64 % 64, 0x80 + r % 64]
  else [0xF0 + r / 262144, 0x80 + r / 4096 % 64, 0x80 + r / 64 % 64, 0x80 + r % 64]

/-- Parse the body of a JSON string literal (after the opening quote),
returning the decoded bytes and the input after the closing quote:
unescaped bytes verbatim (controls are rejected, invalid UTF-8 becomes
U+FFFD), short escapes, and `\uXXXX` with UTF-16 surrogate-pair
handling (an unpaired surrogate decodes to U+FFFD without consuming
the next escape), as in the stdlib scanner plus `unquote`. -/
def parseStrBody : Nat → Bytes → Option (Bytes × Bytes)
  | 0, _ => none
  | _ + 1, [] => none
  | fuel + 1, b :: rest =>
    if b = 34 then some ([], rest)
    else if b = 92 then
      match rest with
      | [] => none
      | e :: rest2 =>
        if e = 34 ∨ e = 92 ∨ e = 47 then
          (parseStrBody fuel rest2).map (fun p => (e :: p.1, p.2))
        else if e = 98 then (parseStrBody fuel rest2).map (fun p => (8 :: p.1, p.2))
        else if e = 102 then (parseStrBody fuel rest2).map (fun p => (12 :: p.1, p.2))
        else if e = 110 then (parseStrBody fuel rest2).map (fun p => (10 :: p.1, p.2))
        else if e = 114 then (parseStrBody fuel rest2).map (fun p => (13 :: p.1, p.2))
        else if e = 116 then (parseStrBody fuel rest2).map (fun p => (9 :: p.1, p.2))
        else if e = 117 then
          match hex4 rest2 with
          | none => none
          | some (r1, rest3) =>
            if 0xD800 ≤ r1 ∧ r1 ≤ 0xDFFF then
              match rest3 with
              | 92 :: 117 :: rest4 =>
                match hex4 rest4 with
                | some (r2, rest5) =>
                  if r1 ≤ 0xDBFF ∧ 0xDC00 ≤ r2 ∧ r2 ≤ 0xDFFF then
                    (parseStrBody fuel rest5).map (fun p =>
                      (utf8Encode ((r1 - 0xD800) * 1024 + (r2 - 0xDC00) + 0x10000) ++ p.1, p.2))
                  else
                    (parseStrBody fuel rest3).map (fun p => (utf8Encode 0xFFFD ++ p.1, p.2))
                | none =>
                  (parseStrBody fuel rest3).map (fun p => (utf8Encode 0xFFFD ++ p.1, p.2))
              | _ =>
                (parseStrBody fuel rest3).map (fun p => (utf8Encode 0xFFFD ++ p.1, p.2))
            else (parseStrBody fuel rest3).map (fun p => (utf8Encode r1 ++ p.1, p.2))
        else none
    else if b < 0x20 then none
    else if b < 0x80 then (parseStrBody fuel rest).map (fun p => (b :: p.1, p.2))
    else
      match utf8Decode1 (b :: rest) with
      | some (r, n) =>
        (parseStrBody fuel ((b :: rest).drop n)).map (fun p => (utf8Encode r ++ p.1, p.2))
      | none =>
        (parseStrBody fuel rest).map (fun p => (0xEF :: 0xBF :: 0xBD :: p.1, p.2))

/-- Parse one JSON string literal at the head of the input. -/
def parseStringAt (l : Bytes) : Option (Bytes × Bytes) :=
  match l with
  | 34 :: rest => parseStrBody (rest.length + 1) rest
  | _ => none

/-- Parse the members of a non-empty object (after the `{`), as
`"key" : "value"` pairs separated by commas; the value must itself be a
string, as required when decoding into `map[string]string`. -/
def parseMembersAux : Nat → Bytes → List (Bytes × Bytes) →
    Option (List (Bytes × Bytes) × Bytes)
  | 0, _, _ => none
  | fuel + 1, l, acc =>
    match parseStringAt (skipWs l) with
    | none => none
    | some (k, r1) =>
      match skipWs r1 with
      | 58 :: r2 =>
        match parseStringAt (skipWs r2) with
        | none => none
        | some (v, r3) =>
          match skipWs r3 with
          | 44 :: r4 => parseMembersAux fuel r4 (acc ++ [(k, v)])
          | 125 :: r4 => some (acc ++ [(k, v)], r4)
          | _ => none
      | _ => none

/-- Parse a top-level JSON object, returning its members in input
order together with the remaining input. -/
def parseTopObject (l : Bytes) : Option (List (Bytes × Bytes) × Bytes) :=
  match skipWs l with
  | 123 :: r =>
    match skipWs r with
    | 125 :: r2 => some ([], r2)
    | _ => parseMembersAux (r.length + 1) r []
  | _ => none

/-- `json.Unmarshal(pt, &m)` for `m : map[string]string`: the input
must be one object (with only white space around it); the members are
installed into the map in input order, a later duplicate key
overwriting an earlier one. -/
def unmarshal (pt : Bytes) : Option Store :=
  match parseTopObject pt with
  | none => none
  | some (entries, rest) =>
    if (skipWs rest).isEmpty then
      some (entries.foldl (fun m e => setEntry e.1 e.2 m) [])
    else none

/-! ## `saveToFile` and `loadFromFile`

The two stateful functions, with the effects made explicit:
`rSalt`/`rNonce` are the `crypto/rand` streams drawn for the salt and
nonce (`rand.Read` is modelled as always succeeding), `writeOk` says
whether `os.OpenFile` and the subsequent writes succeed (a directory
path, for instance, makes it false), and `fileData` is the result of
`os.ReadFile` (`none` = read error).  Each result records the final
contents of the serialized-plaintext and derived-key buffers so that
the zeroing behaviour is observable. -/

inductive SnapErr where
  | ioError
  | invalidFile
  | cipherErr
  | authErr
  | jsonErr
deriving DecidableEq

theorem deriveKey_length (pass salt : Bytes) : (deriveKey pass salt).length = 32 :=
  pbkdf2sha512_length pass salt 100000 32


structure SaveResult where
  err : Option SnapErr
  file : Option Bytes
  blobFinal : Bytes
  keyFinal : Bytes

/-- The body of `saveToFile` once the salt and nonce have been drawn
and the key derived: check the key fits an AES key size
(`aes.NewCipher`; `cipher.NewGCM` never fails for AES's 16-byte
blocks), seal the marshalled snapshot, then write
`salt ‖ nonce ‖ ciphertext`; only after a fully successful write are
the plaintext blob and the key zeroed. -/
def saveCore (store : Store) (salt nonce key : Bytes) (writeOk : Bool) : SaveResult :=
  if ¬ (key.length = 16 ∨ key.length = 24 ∨ key.length = 32) then
    { err := some .cipherErr, file := none,
      blobFinal := marshal (kvSnapshot store), keyFinal := key }
  else if writeOk then
    { err := none,
      file := some (salt ++ nonce ++ gcmSeal key nonce (marshal (kvSnapshot store))),
      blobFinal := List.replicate (marshal (kvSnapshot store)).length 0,
      keyFinal := List.replicate key.length 0 }
  else
    { err := some .ioError, file := none,
      blobFinal := marshal (kvSnapshot store), keyFinal := key }

/-- `saveToFile` (main.go:113): snapshot, marshal (which cannot fail
for a `map[string]string`), draw a 16-byte salt, derive the key, and
run `saveCore`. -/
def saveToFile (store : Store) (pass : Bytes) (rSalt rNonce : Nat → Nat)
    (writeOk : Bool) : SaveResult :=
  saveCore store ((List.range 16).map rSalt) ((List.range 12).map rNonce)
    (deriveKey pass ((List.range 16).map rSalt)) writeOk

structure LoadResult where
  store : Store
  err : Option SnapErr
  ptFinal : Option Bytes
  keyFinal : Option Bytes

/-- `salt := data[:16]` (main.go:164). -/
def loadSalt (data : Bytes) : Bytes := data.take 16

/-- `nonce := data[16:28]` (main.go:165). -/
def loadNonce (data : Bytes) : Bytes := (data.drop 16).take 12

/-- `ct := data[28:]` (main.go:166). -/
def loadCt (data : Bytes) : Bytes := data.drop 28

/-- The tail of `loadFromFile` after decryption: parse the plaintext
and only then replace the store; the plaintext and key buffers are
zeroed only on the fully successful path. -/
def loadFinish (store : Store) (key : Bytes) (openRes : Option Bytes) : LoadResult :=
  match openRes with
  | none =>
    { store := store, err := some .authErr, ptFinal := none, keyFinal := some key }
  | some pt =>
    match unmarshal pt with
    | none =>
      { store := store, err := some .jsonErr, ptFinal := some pt, keyFinal := some key }
    | some m =>
      { store := kvReplace store m, err := none,
        ptFinal := some (List.replicate pt.length 0),
        keyFinal := some (List.replicate key.length 0) }

/-- The body of `loadFromFile` once the file has been read, found long
enough and split, and the key derived: the `aes.NewCipher` key-size
check, then decrypt, parse and replace. -/
def loadCore (store : Store) (key : Bytes) (data : Bytes) : LoadResult :=
  if ¬ (key.length = 16 ∨ key.length = 24 ∨ key.length = 32) then
    { store := store, err := some .cipherErr, ptFinal := none, keyFinal := some key }
  else
    loadFinish store key (gcmOpen key (loadNonce data) (loadCt data))

/-- `loadFromFile` (main.go:156): read the whole file, reject fewer
than 28 bytes as `invalid file`, split at offsets 16 and 28, derive the
key from the embedded salt, and run `loadCore`. -/
def loadFromFile (store : Store) (fileData : Option Bytes) (pass : Bytes) :
    LoadResult :=
  match fileData with
  | none =>
    { store := store, err := some .ioError, ptFinal := none, keyFinal := none }
  | some data =>
    if data.length < 28 then
      { store := store, err := some .invalidFile, ptFinal := none, keyFinal := none }
    else
      loadCore store (deriveKey pass (loadSalt data)) data

theorem cipher_len_ok (key : Bytes) (hk : key.length = 32) :
    ¬ ¬ (key.length = 16 ∨ key.length = 24 ∨ key.length = 32) :=
  not_not_intro (Or.inr (Or.inr hk))

theorem saveCore_ok (store : Store) (salt nonce key : Bytes) (hk : key.length = 32) :
    saveCore store salt nonce key true =
      { err := none,
        file := some (salt ++ nonce ++ gcmSeal key nonce (marshal (kvSnapshot store))),
        blobFinal := List.replicate (marshal (kvSnapshot store)).length 0,
        keyFinal := List.replicate 32 0 } := by
  rw [saveCore, if_neg (cipher_len_ok key hk), if_pos rfl, hk]

theorem saveCore_fail (store : Store) (salt nonce key : Bytes) (hk : key.length = 32) :
    saveCore store salt nonce key false =
      { err := some .ioError, file := none,
        blobFinal := marshal (kvSnapshot store), keyFinal := key } := by
  rw [saveCore, if_neg (cipher_len_ok key hk), if_neg (by decide : ¬ (false = true))]

theorem loadCore_cipher_ok (store : Store) (key data : Bytes) (hk : key.length = 32) :
    loadCore store key data =
      loadFinish store key (gcmOpen key (loadNonce data) (loadCt data)) := by
  rw [loadCore, if_neg (cipher_len_ok key hk)]

theorem loadFinish_err_or_store (store : Store) (key : Bytes)
    (openRes : Option Bytes) :
    (loadFinish store key openRes).err = none ∨
    (loadFinish store key openRes).store = store := by
  cases openRes with
  | none => exact Or.inr rfl
  | some pt =>
    rw [loadFinish]
    cases hum : unmarshal pt with
    | none => exact Or.inr rfl
    | some m => exact Or.inl rfl

/-- C2: whenever `loadFromFile` fails — unreadable file, too-short
file, tag verification failure, or unparsable plaintext — the store
after the call is exactly the store before it; the store is replaced
only on the fully successful path. -/
theorem load_error_leaves_store (store : Store) (fileData : Option Bytes)
    (pass : Bytes) :
    (loadFromFile store fileData pass).err = none ∨
    (loadFromFile store fileData pass).store = store := by
  match fileData with
  | none => exact Or.inr rfl
  | some data =>
    by_cases hlen : data.length < 28
    · rw [loadFromFile, if_pos hlen]
      exact Or.inr rfl
    · rw [loadFromFile, if_neg hlen,
        loadCore_cipher_ok store (deriveKey pass (loadSalt data)) data
          (deriveKey_length pass (loadSalt data))]
      exact loadFinish_err_or_store store _ _

theorem loadFinish_err_ne_invalid (store : Store) (key : Bytes)
    (openRes : Option Bytes) :
    (loadFinish store key openRes).err ≠ some SnapErr.invalidFile := by
  cases openRes with
  | none => intro hc; cases hc
  | some pt =>
    rw [loadFinish]
    cases hum : unmarshal pt with
    | none => intro hc; cases hc
    | some m => intro hc; cases hc

/-- C7: `loadFromFile` fails with the malformed-file error exactly when
the (readable) file is shorter than 28 bytes, and on such files the
result does not depend on the password — no key derivation or
decryption is attempted. -/
theorem load_short_file (store : Store) (data : Bytes) (pass pass' : Bytes) :
    ((loadFromFile store (some data) pass).err = some SnapErr.invalidFile ↔
      data.length < 28) ∧
    (data.length < 28 →
      loadFromFile store (some data) pass = loadFromFile store (some data) pass') := by
  constructor
  · by_cases hlen : data.length < 28
    · rw [loadFromFile, if_pos hlen]
      exact ⟨fun _ => hlen, fun _ => rfl⟩
    · rw [loadFromFile, if_neg hlen,
        loadCore_cipher_ok store (deriveKey pass (loadSalt data)) data
          (deriveKey_length pass (loadSalt data))]
      exact ⟨fun hc => absurd hc (loadFinish_err_ne_invalid store _ _),
        fun hc => absurd hc hlen⟩
  · intro hlen
    rw [loadFromFile, loadFromFile, if_pos hlen, if_pos hlen]

/-- Witness for `load_short_file`: a 5-byte file is rejected as
malformed. -/
theorem load_short_file_witness :
    (loadFromFile [] (some (List.replicate 5 0)) []).err = some SnapErr.invalidFile :=
  (load_short_file [] (List.replicate 5 0) [] []).1.mpr (by decide)

/-- C10: a successful save writes exactly
`salt[16] ‖ nonce[12] ‖ ciphertext-with-tag` — nothing else, no magic
number or version byte — and the offsets `loadFromFile` splits at
(0–15 salt, 16–27 nonce, 28… ciphertext) recover exactly those three
components of any such file. -/
theorem save_file_layout (store : Store) (pass : Bytes) (rSalt rNonce : Nat → Nat)
    (s n c : Bytes) (hs : s.length = 16) (hn : n.length = 12) :
    ((saveToFile store pass rSalt rNonce true).file =
      some ((List.range 16).map rSalt ++ (List.range 12).map rNonce ++
        gcmSeal (deriveKey pass ((List.range 16).map rSalt))
          ((List.range 12).map rNonce) (marshal (kvSnapshot store))) ∧
      ((List.range 16).map rSalt).length = 16 ∧
      ((List.range 12).map rNonce).length = 12) ∧
    (loadSalt (s ++ n ++ c) = s ∧ loadNonce (s ++ n ++ c) = n ∧
      loadCt (s ++ n ++ c) = c) := by
  refine ⟨⟨?_, by simp, by simp⟩, ?_, ?_, ?_⟩
  · rw [saveToFile, saveCore_ok store ((List.range 16).map rSalt)
      ((List.range 12).map rNonce) (deriveKey pass ((List.range 16).map rSalt))
      (deriveKey_length pass ((List.range 16).map rSalt))]
  · rw [loadSalt, List.append_assoc, show (16 : Nat) = s.length from hs.symm,
      List.take_left]
  · rw [loadNonce, List.append_assoc, show (16 : Nat) = s.length from hs.symm,
      List.drop_left, show (12 : Nat) = n.length from hn.symm, List.take_left]
  · rw [loadCt, show (28 : Nat) = (s ++ n).length by rw [List.length_append]; omega,
      List.drop_left]

/-- Witness for `save_file_layout` at concrete components. -/
theorem save_file_layout_witness :
    loadSalt (List.replicate 16 1 ++ List.replicate 12 2 ++ [3]) = List.replicate 16 1 ∧
    loadNonce (List.replicate 16 1 ++ List.replicate 12 2 ++ [3]) = List.replicate 12 2 ∧
    loadCt (List.replicate 16 1 ++ List.replicate 12 2 ++ [3]) = [3] :=
  (save_file_layout [] [] (fun _ => 0) (fun _ => 0)
    (List.replicate 16 1) (List.replicate 12 2) [3] (by decide) (by decide)).2

theorem loadFinish_zeroed (store : Store) (key : Bytes) (openRes : Option Bytes) :
    (loadFinish store key openRes).err.isSome = true ∨
    ((∃ np, (loadFinish store key openRes).ptFinal = some (List.replicate np 0)) ∧
      (loadFinish store key openRes).keyFinal = some (List.replicate key.length 0)) := by
  cases openRes with
  | none => exact Or.inl rfl
  | some pt =>
    rw [loadFinish]
    cases hum : unmarshal pt with
    | none => exact Or.inl rfl
    | some m => exact Or.inr ⟨⟨pt.length, rfl⟩, rfl⟩

/-- C4 (amended): the serialized plaintext and the derived key are
zeroed on the *successful* return path of `saveToFile`, and the
decrypted plaintext and the derived key on the *successful* return
path of `loadFromFile`; on the error return paths the buffers are not
zeroed — a failed file write, for instance, returns with the plaintext
blob and key still holding their live contents. -/
theorem buffers_zeroed_on_success_only (store store' : Store) (pass : Bytes)
    (rSalt rNonce : Nat → Nat) (fileData : Option Bytes) :
    (saveToFile store pass rSalt rNonce true =
      { err := none,
        file := some ((List.range 16).map rSalt ++ (List.range 12).map rNonce ++
          gcmSeal (deriveKey pass ((List.range 16).map rSalt))
            ((List.range 12).map rNonce) (marshal (kvSnapshot store))),
        blobFinal := List.replicate (marshal (kvSnapshot store)).length 0,
        keyFinal := List.replicate 32 0 }) ∧
    (saveToFile store pass rSalt rNonce false =
      { err := some SnapErr.ioError, file := none,
        blobFinal := marshal (kvSnapshot store),
        keyFinal := deriveKey pass ((List.range 16).map rSalt) }) ∧
    ((loadFromFile store' fileData pass).err.isSome = true ∨
      ((∃ np, (loadFromFile store' fileData pass).ptFinal = some (List.replicate np 0)) ∧
        (loadFromFile store' fileData pass).keyFinal = some (List.replicate 32 0))) := by
  refine ⟨?_, ?_, ?_⟩
  · rw [saveToFile, saveCore_ok store ((List.range 16).map rSalt)
      ((List.range 12).map rNonce) (deriveKey pass ((List.range 16).map rSalt))
      (deriveKey_length pass ((List.range 16).map rSalt))]
  · rw [saveToFile, saveCore_fail store ((List.range 16).map rSalt)
      ((List.range 12).map rNonce) (deriveKey pass ((List.range 16).map rSalt))
      (deriveKey_length pass ((List.range 16).map rSalt))]
  · match fileData with
    | none => exact Or.inl rfl
    | some data =>
      by_cases hlen : data.length < 28
      · rw [loadFromFile, if_pos hlen]
        exact Or.inl rfl
      · rw [loadFromFile, if_neg hlen,
          loadCore_cipher_ok store' (deriveKey pass (loadSalt data)) data
            (deriveKey_length pass (loadSalt data))]
        rcases loadFinish_zeroed store' (deriveKey pass (loadSalt data))
          (gcmOpen (deriveKey pass (loadSalt data)) (loadNonce data) (loadCt data)) with
          h | ⟨hp, hk⟩
        · exact Or.inl h
        · refine Or.inr ⟨hp, ?_⟩
          rw [hk, deriveKey_length]

/-- C4 counterexample: a save whose file write fails (for example, the
target path is a directory) returns with the serialized plaintext
buffer still holding the JSON bytes `{}` — not zeros — and likewise
the unzeroed derived key. -/
theorem buffers_zeroed_counterexample :
    (saveToFile [] [] (fun _ => 0) (fun _ => 0) false).err = some SnapErr.ioError ∧
    (saveToFile [] [] (fun _ => 0) (fun _ => 0) false).blobFinal = [123, 125] ∧
    (([123, 125] : Bytes) == List.replicate 2 0) = false := by
  rw [saveToFile, saveCore_fail [] ((List.range 16).map (fun _ => 0))
    ((List.range 12).map (fun _ => 0)) (deriveKey [] ((List.range 16).map (fun _ => 0)))
    (deriveKey_length [] ((List.range 16).map (fun _ => 0)))]
  refine ⟨rfl, ?_, by decide⟩
  show marshal (kvSnapshot []) = [123, 125]
  decide

/-! ## The save/load round trip (C1) -/

theorem lookupKey_cons (k : Bytes) (e : Bytes × Bytes) (l : Store) :
    lookupKey k (e :: l) = if e.1 = k then some e.2 else lookupKey k l := by
  obtain ⟨a, b⟩ := e
  rfl

theorem lookupKey_eq_none_of_not_mem (k : Bytes) (l : Store)
    (h : k ∉ l.map Prod.fst) : lookupKey k l = none := by
  induction l with
  | nil => rfl
  | cons e rest ih =>
    rw [lookupKey_cons]
    rw [if_neg (fun he => h (by rw [← he]; exact List.mem_cons_self _ _))]
    exact ih (fun hm => h (List.mem_cons_of_mem _ hm))

theorem lookupKey_foldl_setEntry (l : List (Bytes × Bytes)) :
    ∀ (acc : Store), (l.map Prod.fst).Nodup → ∀ k,
      lookupKey k (l.foldl (fun m e => setEntry e.1 e.2 m) acc) =
        match lookupKey k l with
        | some v => some v
        | none => lookupKey k acc := by
  induction l with
  | nil => intro acc _ k; rfl
  | cons e rest ih =>
    intro acc hnd k
    rw [List.map_cons, List.nodup_cons] at hnd
    obtain ⟨hne, hnd2⟩ := hnd
    rw [List.foldl_cons, ih (setEntry e.1 e.2 acc) hnd2 k, lookupKey_cons]
    by_cases hk : e.1 = k
    · rw [if_pos hk, lookupKey_eq_none_of_not_mem k rest (hk ▸ hne)]
      rw [hk] at hne ⊢
      rw [lookupKey_setEntry_self]
    · rw [if_neg hk, lookupKey_setEntry_ne e.1 e.2 k acc (fun hc => hk hc.symm)]

theorem lookupKey_perm (l l' : Store) (h : l.Perm l')
    (hnd : (l.map Prod.fst).Nodup) :
    ∀ k, lookupKey k l = lookupKey k l' := by
  induction h with
  | nil => intro k; rfl
  | cons e hperm ih =>
    rw [List.map_cons, List.nodup_cons] at hnd
    intro k
    rw [lookupKey_cons, lookupKey_cons]
    by_cases hk : e.1 = k
    · rw [if_pos hk, if_pos hk]
    · rw [if_neg hk, if_neg hk]
      exact ih hnd.2 k
  | swap x y t =>
    rw [List.map_cons, List.map_cons, List.nodup_cons, List.nodup_cons] at hnd
    obtain ⟨hy1, _hx1, _⟩ := hnd
    have hxy : y.1 ≠ x.1 := fun hc => hy1 (by rw [hc]; exact List.mem_cons_self _ _)
    intro k
    rw [lookupKey_cons, lookupKey_cons, lookupKey_cons, lookupKey_cons]
    by_cases hx : y.1 = k
    · rw [if_pos hx, if_neg (fun hc : x.1 = k => hxy (hx.trans hc.symm)), if_pos hx]
    · by_cases hy : x.1 = k
      · rw [if_neg hx, if_pos hy, if_pos hy]
      · rw [if_neg hx, if_neg hy, if_neg hy, if_neg hx]
  | trans h1 h2 ih1 ih2 =>
    intro k
    rw [ih1 hnd k]
    refine ih2 ?_ k
    exact ((h1.map Prod.fst).nodup_iff).mp hnd


theorem hexVal_hexDigitChar (d : Nat) (hd : d < 16) :
    hexVal (hexDigitChar d) = some d := by
  rw [hexDigitChar, hexVal]
  by_cases h10 : d < 10
  · rw [if_pos h10, if_pos (by omega)]
    congr 1
    omega
  · rw [if_neg h10, if_neg (by omega), if_pos (by omega)]
    congr 1
    omega

/-- A successful decode whose first byte is not ASCII: the size is
2–4, re-encoding the rune reproduces exactly the consumed bytes, the
decode is stable under changing the bytes after the consumed ones, and
the rune is at least U+0080. -/
theorem utf8Decode1_ge (b : Nat) (t : Bytes) (r n : Nat)
    (h : utf8Decode1 (b :: t) = some (r, n)) (hb : 0x80 ≤ b) :
    2 ≤ n ∧ n ≤ (b :: t).length ∧ utf8Encode r = (b :: t).take n ∧
    (∀ ext, utf8Decode1 ((b :: t).take n ++ ext) = some (r, n)) ∧ 0x80 ≤ r := by
  simp only [utf8Decode1] at h
  rw [if_neg (by omega : ¬ b < 0x80)] at h
  by_cases hB : b < 0xC2
  · rw [if_pos hB] at h; cases h
  rw [if_neg hB] at h
  by_cases hC : b ≤ 0xDF
  · rw [if_pos hC] at h
    match t, h with
    | b1 :: t', h =>
      dsimp only at h
      by_cases hcond : 0x80 ≤ b1 ∧ b1 ≤ 0xBF
      · rw [if_pos hcond] at h
        rw [Option.some.injEq, Prod.mk.injEq] at h
        obtain ⟨hr, hn⟩ := h
        subst hr; subst hn
        obtain ⟨hc1, hc2⟩ := hcond
        refine ⟨by omega, by simp, ?_, ?_, by omega⟩
        · rw [utf8Encode, if_neg (by omega), if_pos (by omega)]
          have e1 : 0xC0 + (b % 32 * 64 + b1 % 64) / 64 = b := by omega
          have e2 : 0x80 + (b % 32 * 64 + b1 % 64) % 64 = b1 := by omega
          rw [e1, e2]
          rfl
        · intro ext
          rw [show (b :: b1 :: t').take 2 ++ ext = b :: b1 :: ext from rfl, utf8Decode1,
            if_neg (by omega : ¬ b < 0x80), if_neg hB, if_pos hC,
            if_pos ⟨hc1, hc2⟩]
      · rw [if_neg hcond] at h; cases h
  rw [if_neg hC] at h
  by_cases hD : b ≤ 0xEF
  · rw [if_pos hD] at h
    match t, h with
    | [], h => cases h
    | [b1], h => cases h
    | b1 :: b2 :: t', h =>
      dsimp only at h
      by_cases hcond : (if b = 0xE0 then 0xA0 else 0x80) ≤ b1 ∧
          b1 ≤ (if b = 0xED then 0x9F else 0xBF) ∧ 0x80 ≤ b2 ∧ b2 ≤ 0xBF
      · rw [if_pos hcond] at h
        rw [Option.some.injEq, Prod.mk.injEq] at h
        obtain ⟨hr, hn⟩ := h
        subst hr; subst hn
        obtain ⟨hc1, hc2, hc3, hc4⟩ := hcond
        have hb1lo : 0x80 ≤ b1 := by
          by_cases hE : b = 0xE0
          · rw [if_pos hE] at hc1; omega
          · rw [if_neg hE] at hc1; omega
        have hb1hi : b1 ≤ 0xBF := by
          by_cases hE : b = 0xED
          · rw [if_pos hE] at hc2; omega
          · rw [if_neg hE] at hc2; omega
        have hrlo : ¬ (b % 16 * 4096 + b1 % 64 * 64 + b2 % 64) < 0x800 := by
          by_cases hE : b = 0xE0
          · rw [if_pos hE] at hc1
            subst hE
            omega
          · have : 1 ≤ b % 16 := by omega
            omega
        refine ⟨by omega, by simp, ?_, ?_, by omega⟩
        · rw [utf8Encode, if_neg (by omega), if_neg hrlo, if_pos (by omega)]
          have e1 : 0xE0 + (b % 16 * 4096 + b1 % 64 * 64 + b2 % 64) / 4096 = b := by
            omega
          have e2 : 0x80 + (b % 16 * 4096 + b1 % 64 * 64 + b2 % 64) / 64 % 64 = b1 := by
            omega
          have e3 : 0x80 + (b % 16 * 4096 + b1 % 64 * 64 + b2 % 64) % 64 = b2 := by
            omega
          rw [e1, e2, e3]
          rfl
        · intro ext
          rw [show (b :: b1 :: b2 :: t').take 3 ++ ext = b :: b1 :: b2 :: ext from rfl,
            utf8Decode1, if_neg (by omega : ¬ b < 0x80), if_neg hB, if_neg hC,
            if_pos hD]
          dsimp only
          rw [if_pos ⟨hc1, hc2, hc3, hc4⟩]
      · rw [if_neg hcond] at h; cases h
  rw [if_neg hD] at h
  by_cases hE : b ≤ 0xF4
  · rw [if_pos hE] at h
    match t, h with
    | [], h => cases h
    | [b1], h => cases h
    | [b1, b2], h => cases h
    | b1 :: b2 :: b3 :: t', h =>
      dsimp only at h
      by_cases hcond : (if b = 0xF0 then 0x90 else 0x80) ≤ b1 ∧
          b1 ≤ (if b = 0xF4 then 0x8F else 0xBF) ∧ 0x80 ≤ b2 ∧ b2 ≤ 0xBF ∧
          0x80 ≤ b3 ∧ b3 ≤ 0xBF
      · rw [if_pos hcond] at h
        rw [Option.some.injEq, Prod.mk.injEq] at h
        obtain ⟨hr, hn⟩ := h
        subst hr; subst hn
        obtain ⟨hc1, hc2, hc3, hc4, hc5, hc6⟩ := hcond
        have hb1lo : 0x80 ≤ b1 := by
          by_cases hF : b = 0xF0
          · rw [if_pos hF] at hc1; omega
          · rw [if_neg hF] at hc1; omega
        have hb1hi : b1 ≤ 0xBF := by
          by_cases hF : b = 0xF4
          · rw [if_pos hF] at hc2; omega
          · rw [if_neg hF] at hc2; omega
        have hrlo : ¬ (b % 8 * 262144 + b1 % 64 * 4096 + b2 % 64 * 64 + b3 % 64)
            < 0x10000 := by
          by_cases hF : b = 0xF0
          · rw [if_pos hF] at hc1
            subst hF
            omega
          · have : 1 ≤ b % 8 := by omega
            omega
        refine ⟨by omega, by simp, ?_, ?_, by omega⟩
        · rw [utf8Encode, if_neg (by omega), if_neg (by omega), if_neg hrlo]
          have e1 : 0xF0 + (b % 8 * 262144 + b1 % 64 * 4096 + b2 % 64 * 64 + b3 % 64)
              / 262144 = b := by omega
          have e2 : 0x80 + (b % 8 * 262144 + b1 % 64 * 4096 + b2 % 64 * 64 + b3 % 64)
              / 4096 % 64 = b1 := by omega
          have e3 : 0x80 + (b % 8 * 262144 + b1 % 64 * 4096 + b2 % 64 * 64 + b3 % 64)
              / 64 % 64 = b2 := by omega
          have e4 : 0x80 + (b % 8 * 262144 + b1 % 64 * 4096 + b2 % 64 * 64 + b3 % 64)
              % 64 = b3 := by omega
          rw [e1, e2, e3, e4]
          rfl
        · intro ext
          rw [show (b :: b1 :: b2 :: b3 :: t').take 4 ++ ext = b :: b1 :: b2 :: b3 :: ext
              from rfl,
            utf8Decode1, if_neg (by omega : ¬ b < 0x80), if_neg hB, if_neg hC,
            if_neg hD, if_pos hE]
          dsimp only
          rw [if_pos ⟨hc1, hc2, hc3, hc4, hc5, hc6⟩]
      · rw [if_neg hcond] at h; cases h
  · rw [if_neg hE] at h; cases h


/-- `utf8.Valid`: every byte is consumed by the decoder (fuel = byte
count). -/
def validUtf8Aux : Nat → Bytes → Bool
  | 0, l => l.isEmpty
  | _ + 1, [] => true
  | fuel + 1, b :: rest =>
    if b < 0x80 then validUtf8Aux fuel rest
    else
      match utf8Decode1 (b :: rest) with
      | some (_, n) => validUtf8Aux fuel ((b :: rest).drop n)
      | none => false

def validUtf8 (s : Bytes) : Bool := validUtf8Aux s.length s

theorem utf8Decode1_size (l : Bytes) (r n : Nat)
    (h : utf8Decode1 l = some (r, n)) : 1 ≤ n ∧ n ≤ l.length := by
  match l with
  | [] => cases h
  | b :: t =>
    by_cases hb : b < 0x80
    · simp only [utf8Decode1, if_pos hb, Option.some.injEq, Prod.mk.injEq] at h
      obtain ⟨_, hn⟩ := h
      subst hn
      simp
    · obtain ⟨h1, h2, _, _, _⟩ := utf8Decode1_ge b t r n h (by omega)
      exact ⟨by omega, h2⟩

theorem validUtf8Aux_irrel : ∀ (f1 : Nat) (l : Bytes) (f2 : Nat),
    l.length ≤ f1 → l.length ≤ f2 → validUtf8Aux f1 l = validUtf8Aux f2 l := by
  intro f1
  induction f1 with
  | zero =>
    intro l f2 h1 _
    match l, h1 with
    | [], _ => cases f2 <;> rfl
  | succ f ih =>
    intro l f2 h1 h2
    match l with
    | [] => cases f2 <;> rfl
    | b :: t =>
      obtain ⟨g, rfl⟩ : ∃ g, f2 = g + 1 := ⟨f2 - 1, by simp at h2; omega⟩
      simp only [validUtf8Aux]
      by_cases hb : b < 0x80
      · rw [if_pos hb, if_pos hb]
        exact ih t g (by simp at h1; omega) (by simp at h2; omega)
      · rw [if_neg hb, if_neg hb]
        cases hdec : utf8Decode1 (b :: t) with
        | none => rfl
        | some p =>
          obtain ⟨r, n⟩ := p
          obtain ⟨hn1, hn2⟩ := utf8Decode1_size (b :: t) r n hdec
          dsimp only
          exact ih ((b :: t).drop n) g
            (by rw [List.length_drop]; simp at h1 ⊢; omega)
            (by rw [List.length_drop]; simp at h2 ⊢; omega)


theorem htmlSafe_props (b : Nat) (h : htmlSafe b = true) :
    0x20 ≤ b ∧ b ≠ 0x22 ∧ b ≠ 0x5C ∧ b ≠ 0x3C ∧ b ≠ 0x3E ∧ b ≠ 0x26 := by
  simpa [htmlSafe] using h

theorem parse_one_plain (g b : Nat) (tail : Bytes)
    (h34 : ¬ b = 34) (h92 : ¬ b = 92) (hctl : ¬ b < 0x20) (hlt : b < 0x80) :
    parseStrBody (g + 1) (b :: tail) =
      (parseStrBody g tail).map (fun p => (b :: p.1, p.2)) := by
  simp only [parseStrBody]
  rw [if_neg h34, if_neg h92, if_neg hctl, if_pos hlt]

theorem parse_one_backslash (g : Nat) (tail : Bytes) :
    parseStrBody (g + 1) (92 :: 92 :: tail) =
      (parseStrBody g tail).map (fun p => (92 :: p.1, p.2)) := rfl

theorem parse_one_quote (g : Nat) (tail : Bytes) :
    parseStrBody (g + 1) (92 :: 34 :: tail) =
      (parseStrBody g tail).map (fun p => (34 :: p.1, p.2)) := rfl

theorem parse_one_nl (g : Nat) (tail : Bytes) :
    parseStrBody (g + 1) (92 :: 110 :: tail) =
      (parseStrBody g tail).map (fun p => (10 :: p.1, p.2)) := rfl

theorem parse_one_cr (g : Nat) (tail : Bytes) :
    parseStrBody (g + 1) (92 :: 114 :: tail) =
      (parseStrBody g tail).map (fun p => (13 :: p.1, p.2)) := rfl

theorem parse_one_tab (g : Nat) (tail : Bytes) :
    parseStrBody (g + 1) (92 :: 116 :: tail) =
      (parseStrBody g tail).map (fun p => (9 :: p.1, p.2)) := rfl

theorem parse_one_u (g d1 d2 d3 d4 v : Nat) (tail : Bytes)
    (hv : hex4 (d1 :: d2 :: d3 :: d4 :: tail) = some (v, tail))
    (hs : ¬ (0xD800 ≤ v ∧ v ≤ 0xDFFF)) :
    parseStrBody (g + 1) (92 :: 117 :: d1 :: d2 :: d3 :: d4 :: tail) =
      (parseStrBody g tail).map (fun p => (utf8Encode v ++ p.1, p.2)) := by
  simp only [parseStrBody, hv]
  rw [if_neg hs]
  norm_num

theorem parse_one_rune (g b : Nat) (s' T : Bytes) (r n : Nat)
    (hb : ¬ b < 0x80)
    (hstab : ∀ ext, utf8Decode1 ((b :: s').take n ++ ext) = some (r, n))
    (hn2 : 2 ≤ n) (hnlen : n ≤ (b :: s').length) :
    parseStrBody (g + 1) ((b :: s').take n ++ T) =
      (parseStrBody g T).map (fun p => (utf8Encode r ++ p.1, p.2)) := by
  obtain ⟨m, rfl⟩ : ∃ m, n = m + 1 := ⟨n - 1, by omega⟩
  rw [List.take_succ_cons, List.cons_append]
  simp only [parseStrBody]
  rw [if_neg (by omega : ¬ b = 34), if_neg (by omega : ¬ b = 92),
    if_neg (by omega : ¬ b < 0x20), if_neg hb]
  have hre : utf8Decode1 (b :: (s'.take m ++ T)) = some (r, m + 1) := by
    have := hstab T
    rw [List.take_succ_cons, List.cons_append] at this
    exact this
  rw [hre]
  have hm : (s'.take m).length = m := by
    rw [List.length_take]
    simp only [List.length_cons] at hnlen
    omega
  have hdrop : (b :: (s'.take m ++ T)).drop (m + 1) = T := by
    rw [List.drop_succ_cons]
    exact List.drop_left' hm
  dsimp only
  rw [hdrop]

theorem hex4_digits (b : Nat) (tail : Bytes) (hb : b < 256) :
    hex4 (48 :: 48 :: hexDigitChar (b / 16) :: hexDigitChar (b % 16) :: tail) =
      some (b, tail) := by
  rw [hex4, show hexVal 48 = some 0 from rfl,
    hexVal_hexDigitChar (b / 16) (by omega), hexVal_hexDigitChar (b % 16) (by omega)]
  dsimp only
  congr 2
  omega

theorem parseStrBody_escAux : ∀ (fE : Nat) (s : Bytes), s.length ≤ fE →
    validUtf8Aux s.length s = true →
    ∀ (rest : Bytes) (fP : Nat), (escAux fE s ++ 34 :: rest).length ≤ fP →
    parseStrBody fP (escAux fE s ++ 34 :: rest) = some (s, rest) := by
  intro fE
  induction fE with
  | zero =>
    intro s hle hval rest fP hfp
    match s, hle with
    | [], _ =>
      obtain ⟨g, rfl⟩ : ∃ g, fP = g + 1 := ⟨fP - 1, by simp at hfp; omega⟩
      rw [show escAux 0 [] = [] from rfl, List.nil_append]
      rfl
  | succ f ih =>
    intro s hle hval rest fP hfp
    match s with
    | [] =>
      obtain ⟨g, rfl⟩ : ∃ g, fP = g + 1 := ⟨fP - 1, by simp at hfp; omega⟩
      rw [show escAux (f + 1) [] = [] from rfl, List.nil_append]
      rfl
    | b :: s' =>
      simp only [List.length_cons] at hle hval
      obtain ⟨g, rfl⟩ : ∃ g, fP = g + 1 := ⟨fP - 1, by simp at hfp; omega⟩
      simp only [escAux] at hfp ⊢
      by_cases hb : b < 0x80
      · rw [if_pos hb] at hfp ⊢
        have hval' : validUtf8Aux s'.length s' = true := by
          simpa only [validUtf8Aux, if_pos hb] using hval
        have hle' : s'.length ≤ f := by omega
        by_cases hsafe : htmlSafe b
        · obtain ⟨hge, h34, h92, _, _, _⟩ := htmlSafe_props b hsafe
          rw [if_pos hsafe] at hfp ⊢
          rw [List.cons_append,
            parse_one_plain g b _ h34 h92 (by omega) hb,
            ih s' hle' hval' rest g (by
              simp only [List.length_cons, List.length_append] at hfp ⊢
              omega)]
          rfl
        · rw [if_neg hsafe] at hfp ⊢
          by_cases h5C : b = 0x5C
          · rw [if_pos h5C] at hfp ⊢
            rw [List.cons_append, List.cons_append, parse_one_backslash,
              ih s' hle' hval' rest g (by
                simp only [List.length_cons, List.length_append] at hfp ⊢
                omega)]
            rw [h5C]
            rfl
          · rw [if_neg h5C] at hfp ⊢
            by_cases h22 : b = 0x22
            · rw [if_pos h22] at hfp ⊢
              rw [List.cons_append, List.cons_append, parse_one_quote,
                ih s' hle' hval' rest g (by
                  simp only [List.length_cons, List.length_append] at hfp ⊢
                  omega)]
              rw [h22]
              rfl
            · rw [if_neg h22] at hfp ⊢
              by_cases h0A : b = 0x0A
              · rw [if_pos h0A] at hfp ⊢
                rw [List.cons_append, List.cons_append, parse_one_nl,
                  ih s' hle' hval' rest g (by
                    simp only [List.length_cons, List.length_append] at hfp ⊢
                    omega)]
                rw [h0A]
                rfl
              · rw [if_neg h0A] at hfp ⊢
                by_cases h0D : b = 0x0D
                · rw [if_pos h0D] at hfp ⊢
                  rw [List.cons_append, List.cons_append, parse_one_cr,
                    ih s' hle' hval' rest g (by
                      simp only [List.length_cons, List.length_append] at hfp ⊢
                      omega)]
                  rw [h0D]
                  rfl
                · rw [if_neg h0D] at hfp ⊢
                  by_cases h09 : b = 0x09
                  · rw [if_pos h09] at hfp ⊢
                    rw [List.cons_append, List.cons_append, parse_one_tab,
                      ih s' hle' hval' rest g (by
                        simp only [List.length_cons, List.length_append] at hfp ⊢
                        omega)]
                    rw [h09]
                    rfl
                  · rw [if_neg h09] at hfp ⊢
                    rw [List.cons_append, List.cons_append, List.cons_append,
                      List.cons_append, List.cons_append, List.cons_append,
                      parse_one_u g 48 48 (hexDigitChar (b / 16))
                        (hexDigitChar (b % 16)) b (escAux f s' ++ 34 :: rest)
                        (hex4_digits b _ (by omega)) (by omega),
                      ih s' hle' hval' rest g (by
                        simp only [List.length_cons, List.length_append] at hfp ⊢
                        omega)]
                    rw [show utf8Encode b = [b] by rw [utf8Encode, if_pos hb]]
                    rfl
      · rw [if_neg hb] at hfp ⊢
        have hval2 : (match utf8Decode1 (b :: s') with
            | some (_, n) => validUtf8Aux s'.length ((b :: s').drop n)
            | none => false) = true := by
          simpa only [validUtf8Aux, if_neg hb] using hval
        cases hdec : utf8Decode1 (b :: s') with
        | none =>
          rw [hdec] at hval2
          cases hval2
        | some p =>
          obtain ⟨r, n⟩ := p
          rw [hdec] at hval2 hfp
          dsimp only at hval2 hfp ⊢
          obtain ⟨hn2, hnlen, henc, hstab, hr128⟩ :=
            utf8Decode1_ge b s' r n hdec (by omega)
          have hlen' : ((b :: s').drop n).length ≤ f := by
            rw [List.length_drop]
            simp only [List.length_cons]
            omega
          have hval3 : validUtf8Aux ((b :: s').drop n).length ((b :: s').drop n)
              = true := by
            rw [validUtf8Aux_irrel ((b :: s').drop n).length ((b :: s').drop n)
              s'.length (le_refl _) (by rw [List.length_drop]; simp; omega)]
            exact hval2
          by_cases h2028 : r = 0x2028 ∨ r = 0x2029
          · rw [if_pos h2028] at hfp ⊢
            rw [List.cons_append, List.cons_append, List.cons_append,
              List.cons_append, List.cons_append, List.cons_append,
              parse_one_u g 50 48 50 (hexDigitChar (r % 16)) r
                (escAux f ((b :: s').drop n) ++ 34 :: rest) ?hhex (by
                  rcases h2028 with h | h <;> subst h <;> omega),
              ih ((b :: s').drop n) hlen' hval3 rest g (by
                simp only [List.length_cons, List.length_append] at hfp ⊢
                omega),
              henc]
            · rw [show Option.map (fun p => ((b :: s').take n ++ p.1, p.2))
                  (some ((b :: s').drop n, rest)) =
                  some ((b :: s').take n ++ (b :: s').drop n, rest) from rfl,
                List.take_append_drop]
            case hhex =>
              rw [hex4, show hexVal 50 = some 2 from rfl,
                show hexVal 48 = some 0 from rfl,
                hexVal_hexDigitChar (r % 16) (by omega)]
              dsimp only
              congr 2
              rcases h2028 with h | h <;> subst h <;> rfl
          · rw [if_neg h2028] at hfp ⊢
            rw [List.append_assoc,
              parse_one_rune g b s' (escAux f ((b :: s').drop n) ++ 34 :: rest)
                r n hb hstab hn2 hnlen,
              ih ((b :: s').drop n) hlen' hval3 rest g (by
                simp only [List.length_cons, List.length_append, List.length_take,
                  List.length_drop] at hfp ⊢
                omega),
              henc]
            rw [show Option.map (fun p => ((b :: s').take n ++ p.1, p.2))
                (some ((b :: s').drop n, rest)) =
                some ((b :: s').take n ++ (b :: s').drop n, rest) from rfl,
              List.take_append_drop]


theorem kvSnapshot_eq (s : Store) : kvSnapshot s = s := rfl

theorem printString_append (s X : Bytes) :
    printString s ++ X = 34 :: (escString s ++ 34 :: X) := by
  rw [printString, List.cons_append, List.cons_append, List.append_assoc,
    List.singleton_append]

theorem parseStringAt_print (s rest' : Bytes) (hval : validUtf8 s = true) :
    parseStringAt (printString s ++ rest') = some (s, rest') := by
  rw [printString_append]
  rw [show parseStringAt (34 :: (escString s ++ 34 :: rest')) =
    parseStrBody ((escString s ++ 34 :: rest').length + 1) (escString s ++ 34 :: rest')
    from rfl]
  exact parseStrBody_escAux s.length s (le_refl _) hval rest' _
    (by rw [show escString s = escAux s.length s from rfl]; exact Nat.le_succ _)

theorem skipWs_nonws (b : Nat) (l : Bytes) (h : isWsByte b = false) :
    skipWs (b :: l) = b :: l := by
  rw [skipWs, List.dropWhile_cons, if_neg (by simp [h])]

theorem skipWs_printString_append (s X : Bytes) :
    skipWs (printString s ++ X) = printString s ++ X := by
  rw [printString_append, skipWs_nonws 34 _ (by decide)]

theorem parseMembersAux_print :
    ∀ (entries : List (Bytes × Bytes)) (e0 : Bytes × Bytes)
      (acc : List (Bytes × Bytes)) (fuel : Nat),
      (∀ e ∈ e0 :: entries, validUtf8 e.1 = true ∧ validUtf8 e.2 = true) →
      entries.length + 1 ≤ fuel →
      parseMembersAux fuel (joinComma ((e0 :: entries).map printEntry) ++ [125]) acc =
        some (acc ++ e0 :: entries, []) := by
  intro entries
  induction entries with
  | nil =>
    intro e0 acc fuel hval hfuel
    obtain ⟨fl, rfl⟩ : ∃ fl, fuel = fl + 1 := ⟨fuel - 1, by omega⟩
    obtain ⟨hk, hv⟩ := hval e0 (List.mem_cons_self _ _)
    rw [show joinComma ([e0].map printEntry) = printEntry e0 from rfl, printEntry,
      List.append_assoc, List.cons_append]
    simp only [parseMembersAux]
    rw [skipWs_printString_append, parseStringAt_print e0.1 _ hk]
    dsimp only
    rw [skipWs_nonws 58 _ (by decide)]
    dsimp only
    rw [skipWs_printString_append, parseStringAt_print e0.2 _ hv]
    dsimp only
    rw [skipWs_nonws 125 _ (by decide)]
  | cons e1 es ih =>
    intro e0 acc fuel hval hfuel
    obtain ⟨fl, rfl⟩ : ∃ fl, fuel = fl + 1 := ⟨fuel - 1, by omega⟩
    obtain ⟨hk, hv⟩ := hval e0 (List.mem_cons_self _ _)
    rw [show joinComma ((e0 :: e1 :: es).map printEntry) =
      printEntry e0 ++ 44 :: joinComma ((e1 :: es).map printEntry) from rfl,
      printEntry, List.append_assoc, List.cons_append, List.append_assoc]
    simp only [parseMembersAux]
    rw [skipWs_printString_append, parseStringAt_print e0.1 _ hk]
    dsimp only
    rw [List.cons_append, skipWs_nonws 58 _ (by decide)]
    dsimp only
    rw [skipWs_printString_append, parseStringAt_print e0.2 _ hv]
    dsimp only
    rw [skipWs_nonws 44 _ (by decide)]
    dsimp only
    rw [ih e1 (acc ++ [(e0.1, e0.2)]) fl
      (fun e he => hval e (List.mem_cons_of_mem _ he))
      (by simp only [List.length_cons] at hfuel ⊢; omega)]
    rw [List.append_assoc, List.singleton_append]

theorem printEntry_append (e : Bytes × Bytes) (Y : Bytes) :
    printEntry e ++ Y = 34 :: (escString e.1 ++ 34 :: 58 :: (printString e.2 ++ Y)) := by
  rw [printEntry, List.append_assoc, List.cons_append, printString_append]

theorem printEntry_len_pos (e : Bytes × Bytes) : 1 ≤ (printEntry e).length := by
  rw [printEntry]
  simp only [List.length_append, List.length_cons]
  omega

theorem joinComma_print_len (l : List (Bytes × Bytes)) :
    l.length ≤ (joinComma (l.map printEntry)).length := by
  induction l with
  | nil => exact Nat.le_refl 0
  | cons e rest ih =>
    cases rest with
    | nil =>
      rw [show joinComma ([e].map printEntry) = printEntry e from rfl]
      simpa using printEntry_len_pos e
    | cons e1 es =>
      rw [show joinComma ((e :: e1 :: es).map printEntry) =
        printEntry e ++ 44 :: joinComma ((e1 :: es).map printEntry) from rfl]
      simp only [List.length_append, List.length_cons] at ih ⊢
      have := printEntry_len_pos e
      omega

theorem joinComma_print_cons (e0 : Bytes × Bytes) (l : List (Bytes × Bytes)) (X : Bytes) :
    ∃ t : Bytes, joinComma ((e0 :: l).map printEntry) ++ X = 34 :: t := by
  cases l with
  | nil => exact ⟨_, printEntry_append e0 X⟩
  | cons e1 es =>
    refine ⟨escString e0.1 ++ 34 :: 58 :: (printString e0.2 ++
      44 :: (joinComma ((e1 :: es).map printEntry) ++ X)), ?_⟩
    rw [show joinComma ((e0 :: e1 :: es).map printEntry) =
      printEntry e0 ++ 44 :: joinComma ((e1 :: es).map printEntry) from rfl,
      List.append_assoc, List.cons_append, printEntry_append]

theorem parseTopObject_marshal (S : Store)
    (hval : ∀ e ∈ S, validUtf8 e.1 = true ∧ validUtf8 e.2 = true) :
    parseTopObject (marshal S) = some (sortEntries S, []) := by
  rw [marshal, List.cons_append]
  simp only [parseTopObject]
  rw [skipWs_nonws 123 _ (by decide)]
  dsimp only
  cases hs : sortEntries S with
  | nil => rfl
  | cons e0 entries =>
    obtain ⟨t, ht⟩ := joinComma_print_cons e0 entries [125]
    have hsk : skipWs (joinComma ((e0 :: entries).map printEntry) ++ [125]) = 34 :: t := by
      rw [ht]; exact skipWs_nonws 34 t (by decide)
    rw [hsk]
    dsimp only
    have h1 : ∀ e ∈ e0 :: entries, validUtf8 e.1 = true ∧ validUtf8 e.2 = true := by
      intro e he
      refine hval e ?_
      have hmem : e ∈ sortEntries S := by rw [hs]; exact he
      exact (List.perm_insertionSort _ S).mem_iff.mp hmem
    have h2 : entries.length + 1 ≤
        (joinComma ((e0 :: entries).map printEntry) ++ [125]).length + 1 := by
      have hj := joinComma_print_len (e0 :: entries)
      simp only [List.length_cons] at hj
      simp only [List.length_append, List.length_cons, List.length_nil]
      omega
    rw [parseMembersAux_print entries e0 [] _ h1 h2, List.nil_append]

theorem unmarshal_marshal (S : Store)
    (hval : ∀ e ∈ S, validUtf8 e.1 = true ∧ validUtf8 e.2 = true) :
    unmarshal (marshal S) =
      some ((sortEntries S).foldl (fun m e => setEntry e.1 e.2 m) []) := by
  rw [unmarshal, parseTopObject_marshal S hval]
  rfl

theorem loadSalt_split (s n c : Bytes) (hs : s.length = 16) :
    loadSalt (s ++ n ++ c) = s := by
  rw [loadSalt, List.append_assoc]
  exact List.take_left' hs

theorem loadNonce_split (s n c : Bytes) (hs : s.length = 16) (hn : n.length = 12) :
    loadNonce (s ++ n ++ c) = n := by
  rw [loadNonce, List.append_assoc, List.drop_left' hs]
  exact List.take_left' hn

theorem loadCt_split (s n c : Bytes) (hs : s.length = 16) (hn : n.length = 12) :
    loadCt (s ++ n ++ c) = c := by
  rw [loadCt]
  exact List.drop_left' (by rw [List.length_append, hs, hn])

theorem loadFinish_some_eq (store' : Store) (key pt : Bytes) (m : Store)
    (hum : unmarshal pt = some m) :
    (loadFinish store' key (some pt)).err = none ∧
      (loadFinish store' key (some pt)).store = m := by
  simp only [loadFinish]
  rw [hum]
  exact ⟨rfl, rfl⟩

theorem load_of_save (S store' : Store) (pass : Bytes) (rS rN : Nat → Nat) :
    loadFromFile store' (saveToFile S pass rS rN true).file pass =
      loadFinish store' (deriveKey pass ((List.range 16).map rS))
        (some (marshal (kvSnapshot S))) := by
  have hk : (deriveKey pass ((List.range 16).map rS)).length = 32 := deriveKey_length _ _
  rw [saveToFile, saveCore_ok S ((List.range 16).map rS) ((List.range 12).map rN) _ hk]
  dsimp only
  simp only [loadFromFile]
  rw [if_neg (by
    simp only [List.length_append, List.length_map, List.length_range]
    omega)]
  rw [loadSalt_split _ _ _ (by simp only [List.length_map, List.length_range])]
  rw [loadCore_cipher_ok store' _ _ hk]
  rw [loadNonce_split _ _ _ (by simp only [List.length_map, List.length_range])
    (by simp only [List.length_map, List.length_range])]
  rw [loadCt_split _ _ _ (by simp only [List.length_map, List.length_range])
    (by simp only [List.length_map, List.length_range])]
  rw [gcmOpen_gcmSeal]

/-- C1: for a store whose keys and values are all valid UTF-8 (and whose
keys are distinct, as they are in a Go map), saving under any password
with any salt and nonce draw and a successful write, then loading the
produced file under the same password, succeeds on both sides and yields
a store with the same lookup result for every key — the same key set and
the same value for every key. -/
theorem save_load_roundtrip (S store' : Store) (pass : Bytes) (rS rN : Nat → Nat)
    (hnd : (S.map Prod.fst).Nodup)
    (hval : ∀ e ∈ S, validUtf8 e.1 = true ∧ validUtf8 e.2 = true) :
    (saveToFile S pass rS rN true).err = none ∧
    (loadFromFile store' (saveToFile S pass rS rN true).file pass).err = none ∧
    ∀ k, lookupKey k (loadFromFile store' (saveToFile S pass rS rN true).file pass).store =
      lookupKey k S := by
  have hk : (deriveKey pass ((List.range 16).map rS)).length = 32 := deriveKey_length _ _
  have hp : (sortEntries S).Perm S := by
    rw [sortEntries]
    exact List.perm_insertionSort _ S
  have hndS : ((sortEntries S).map Prod.fst).Nodup :=
    ((hp.map Prod.fst).nodup_iff).mpr hnd
  have hum : unmarshal (marshal (kvSnapshot S)) =
      some ((sortEntries S).foldl (fun m e => setEntry e.1 e.2 m) []) := by
    rw [kvSnapshot_eq]
    exact unmarshal_marshal S hval
  refine ⟨?_, ?_, ?_⟩
  · rw [saveToFile, saveCore_ok S ((List.range 16).map rS) ((List.range 12).map rN) _ hk]
  · rw [load_of_save]
    exact (loadFinish_some_eq store' _ _ _ hum).1
  · intro k
    rw [load_of_save, (loadFinish_some_eq store' _ _ _ hum).2,
      lookupKey_foldl_setEntry (sortEntries S) [] hndS k,
      lookupKey_perm (sortEntries S) S hp hndS k]
    cases lookupKey k S <;> rfl

/-- C1 witness: the round trip at the one-entry store mapping "k" to "h",
the empty password and all-zero randomness. -/
theorem save_load_roundtrip_witness :
    (([(([107] : Bytes), ([104] : Bytes))].map Prod.fst).Nodup) ∧
    (∀ e ∈ [(([107] : Bytes), ([104] : Bytes))],
      validUtf8 e.1 = true ∧ validUtf8 e.2 = true) ∧
    ((saveToFile [([107], [104])] [] (fun _ => 0) (fun _ => 0) true).err = none ∧
      (loadFromFile [] (saveToFile [([107], [104])] [] (fun _ => 0) (fun _ => 0)
        true).file []).err = none ∧
      ∀ k, lookupKey k (loadFromFile [] (saveToFile [([107], [104])] [] (fun _ => 0)
          (fun _ => 0) true).file []).store = lookupKey k [([107], [104])]) :=
  ⟨by decide, by decide,
    save_load_roundtrip [([107], [104])] [] [] (fun _ => 0) (fun _ => 0)
      (by decide) (by decide)⟩

/-- C1 counterexample: the store mapping "k" to the single invalid-UTF-8
byte 0xff saves and loads without error, but the loaded store holds the
UTF-8 encoding of U+FFFD (ef bf bd) under "k" — json.Marshal writes the
escape sequence for the replacement character in place of each invalid
byte — so the loaded value differs from the saved one and the round trip
of the original claim fails for this store. -/
theorem roundtrip_counterexample :
    (saveToFile [([107], [255])] [] (fun _ => 0) (fun _ => 0) true).err = none ∧
    (loadFromFile [] (saveToFile [([107], [255])] [] (fun _ => 0) (fun _ => 0)
      true).file []).err = none ∧
    ¬ lookupKey [107] (loadFromFile [] (saveToFile [([107], [255])] [] (fun _ => 0)
        (fun _ => 0) true).file []).store = lookupKey [107] [([107], [255])] := by
  have hum : unmarshal (marshal (kvSnapshot [(([107] : Bytes), ([255] : Bytes))])) =
      some [([107], [239, 191, 189])] := by decide
  refine ⟨?_, ?_, ?_⟩
  · rw [saveToFile, saveCore_ok _ _ _ _ (deriveKey_length _ _)]
  · rw [load_of_save]
    exact (loadFinish_some_eq [] _ _ _ hum).1
  · rw [load_of_save, (loadFinish_some_eq [] _ _ _ hum).2]
    decide

end BoS
